import Mathlib

/-!
Verification of the session-orchestration core of a multi-account WhatsApp
gateway (Baileys-based).  The TypeScript sources are shallowly embedded:
JavaScript `Map` objects become insertion-ordered association lists,
JavaScript numbers become `Int`/`Nat`, `undefined`/`null` become `Option`,
and the stable `Array.prototype.sort` becomes `List.mergeSort`.
Each embedded definition carries a pointer to the source location it
translates.
-/

namespace S2P

/-! ## JavaScript primitives -/

/-- JS string truthiness: `undefined`, `null` and `""` are falsy. -/
def strTruthy : Option String → Bool
  | some s => s ≠ ""
  | none => false

/-- `a || b || …` over JS strings: the first truthy element, if any. -/
def jsFirstTruthyStr (l : List (Option String)) : Option String :=
  (l.find? strTruthy).join

/-- `v || undefined` normalisation of a possibly-falsy string. -/
def jsTruthyStr (o : Option String) : Option String :=
  if strTruthy o then o else none

/-- `String.prototype.endsWith`, modelled over the character list: the
last `t.length` characters of `s` are exactly `t`. -/
def jsEndsWith (s t : String) : Bool :=
  decide (s.toList.drop (s.toList.length - t.toList.length) = t.toList)

/-- A JavaScript `Map<string, α>`: an insertion-ordered association list.
Well-formed maps have pairwise-distinct keys (`KeysNodup`). -/
abbrev JsMap (α : Type) : Type := List (String × α)

namespace JsMap

variable {α : Type}

/-- `Map.prototype.get`: value of the first (with distinct keys: only)
entry for the key. -/
def mget : JsMap α → String → Option α
  | [], _ => none
  | p :: t, k => if p.1 = k then some p.2 else mget t k

/-- `Map.prototype.set`: replace in place when the key is present,
append otherwise. -/
def mset : JsMap α → String → α → JsMap α
  | [], k, v => [(k, v)]
  | p :: t, k, v => if p.1 = k then (k, v) :: t else p :: mset t k v

/-- `Map.prototype.delete`. -/
def mdelete : JsMap α → String → JsMap α
  | [], _ => []
  | p :: t, k => if p.1 = k then mdelete t k else p :: mdelete t k

/-- `Map.prototype.size`. -/
def msize (m : JsMap α) : Nat := List.length m

/-- `Array.from(m.values())`. -/
def vals (m : JsMap α) : List α := List.map (fun p => p.2) m

/-- The keys of the map, in insertion order. -/
def keys (m : JsMap α) : List String := List.map (fun p => p.1) m

/-- Well-formedness of a JS map: keys are pairwise distinct. -/
def KeysNodup (m : JsMap α) : Prop := (keys m).Nodup

theorem mget_mset_self (m : JsMap α) (k : String) (v : α) :
    mget (mset m k v) k = some v := by
  induction m with
  | nil => simp [mget, mset]
  | cons p t ih =>
    by_cases hp : p.1 = k
    · simp [mset, hp, mget]
    · simp [mset, hp, mget, ih]

theorem mget_mset_ne (m : JsMap α) (k k' : String) (v : α) (h : k ≠ k') :
    mget (mset m k v) k' = mget m k' := by
  induction m with
  | nil => simp [mget, mset, h]
  | cons p t ih =>
    by_cases hp : p.1 = k
    · have hp' : ¬ p.1 = k' := by rw [hp]; exact h
      rw [mset, if_pos hp, mget, if_neg h, mget, if_neg hp']
    · rw [mset, if_neg hp, mget, mget]
      by_cases hp' : p.1 = k'
      · rw [if_pos hp', if_pos hp']
      · rw [if_neg hp', if_neg hp']
        exact ih

theorem mget_mdelete_self (m : JsMap α) (k : String) :
    mget (mdelete m k) k = none := by
  induction m with
  | nil => rfl
  | cons p t ih =>
    by_cases hp : p.1 = k
    · simpa [mdelete, hp] using ih
    · simpa [mdelete, hp, mget] using ih

theorem mget_mdelete_ne (m : JsMap α) (k k' : String) (h : k ≠ k') :
    mget (mdelete m k) k' = mget m k' := by
  induction m with
  | nil => rfl
  | cons p t ih =>
    by_cases hp : p.1 = k
    · have hp' : ¬ p.1 = k' := by rw [hp]; exact h
      rw [mdelete, if_pos hp, mget, if_neg hp']
      exact ih
    · rw [mdelete, if_neg hp, mget, mget]
      by_cases hp' : p.1 = k'
      · rw [if_pos hp', if_pos hp']
      · rw [if_neg hp', if_neg hp']
        exact ih

theorem keys_mset_of_mem (m : JsMap α) (k : String) (v : α) :
    k ∈ keys m → keys (mset m k v) = keys m := by
  induction m with
  | nil => intro h; simp [keys] at h
  | cons p t ih =>
    intro h
    by_cases hp : p.1 = k
    · simp [mset, hp, keys]
    · have ht : k ∈ keys t := by
        rcases List.mem_cons.mp h with h1 | h2
        · exact absurd h1.symm hp
        · exact h2
      rw [mset, if_neg hp]
      show p.1 :: keys (mset t k v) = p.1 :: keys t
      rw [ih ht]

theorem keys_mset_of_not_mem (m : JsMap α) (k : String) (v : α) :
    k ∉ keys m → keys (mset m k v) = keys m ++ [k] := by
  induction m with
  | nil => intro _; simp [mset, keys]
  | cons p t ih =>
    intro h
    have hp : ¬ p.1 = k := fun hh => h (by simp [keys, hh])
    have ht : k ∉ keys t := fun hh => h (List.mem_cons_of_mem _ hh)
    rw [mset, if_neg hp]
    show p.1 :: keys (mset t k v) = (p.1 :: keys t) ++ [k]
    rw [ih ht]
    rfl

theorem keysNodup_mset (m : JsMap α) (k : String) (v : α)
    (h : KeysNodup m) : KeysNodup (mset m k v) := by
  by_cases hk : k ∈ keys m
  · unfold KeysNodup
    rw [keys_mset_of_mem m k v hk]
    exact h
  · unfold KeysNodup
    rw [keys_mset_of_not_mem m k v hk]
    simpa [List.nodup_append] using ⟨h, hk⟩

theorem mdelete_sublist (m : JsMap α) (k : String) :
    List.Sublist (mdelete m k) m := by
  induction m with
  | nil => simp [mdelete]
  | cons p t ih =>
    by_cases hp : p.1 = k
    · simpa [mdelete, hp] using List.Sublist.cons p ih
    · simpa [mdelete, hp] using List.Sublist.cons₂ p ih

theorem keysNodup_mdelete (m : JsMap α) (k : String)
    (h : KeysNodup m) : KeysNodup (mdelete m k) := by
  have hs : List.Sublist (keys (mdelete m k)) (keys m) :=
    List.Sublist.map _ (mdelete_sublist m k)
  exact List.Nodup.sublist hs h

theorem length_mset_of_not_mem (m : JsMap α) (k : String) (v : α)
    (h : k ∉ keys m) : (mset m k v).length = m.length + 1 := by
  have := keys_mset_of_not_mem m k v h
  have h1 : (keys (mset m k v)).length = (keys m ++ [k]).length := by rw [this]
  simpa [keys] using h1

theorem length_mset_of_mem (m : JsMap α) (k : String) (v : α)
    (h : k ∈ keys m) : (mset m k v).length = m.length := by
  have := keys_mset_of_mem m k v h
  have h1 : (keys (mset m k v)).length = (keys m).length := by rw [this]
  simpa [keys] using h1

theorem length_mset_le (m : JsMap α) (k : String) (v : α) :
    (mset m k v).length ≤ m.length + 1 := by
  by_cases h : k ∈ keys m
  · rw [length_mset_of_mem m k v h]; omega
  · rw [length_mset_of_not_mem m k v h]

theorem mdelete_of_not_mem (m : JsMap α) (k : String) :
    k ∉ keys m → mdelete m k = m := by
  induction m with
  | nil => intro _; rfl
  | cons p t ih =>
    intro h
    have hp : ¬ p.1 = k := fun hh => h (by simp [keys, hh])
    have ht : k ∉ keys t := fun hh => h (List.mem_cons_of_mem _ hh)
    rw [mdelete, if_neg hp, ih ht]

theorem length_mdelete_of_mem (m : JsMap α) (k : String) :
    KeysNodup m → k ∈ keys m → (mdelete m k).length = m.length - 1 := by
  induction m with
  | nil => intro _ h; simp [keys] at h
  | cons p t ih =>
    intro hnd h
    have hnd1 : p.1 ∉ keys t ∧ KeysNodup t := by
      unfold KeysNodup at hnd
      have : (p.1 :: keys t).Nodup := hnd
      exact ⟨(List.nodup_cons.mp this).1, (List.nodup_cons.mp this).2⟩
    by_cases hp : p.1 = k
    · have hk : k ∉ keys t := by rw [← hp]; exact hnd1.1
      rw [mdelete, if_pos hp, mdelete_of_not_mem t k hk]
      simp
    · have ht : k ∈ keys t := by
        rcases List.mem_cons.mp h with h1 | h2
        · exact absurd h1.symm hp
        · exact h2
      have hpos : 0 < t.length := by
        cases t with
        | nil => simp [keys] at ht
        | cons a b => simp
      have hlen := ih hnd1.2 ht
      rw [mdelete, if_neg hp]
      simp only [List.length_cons, hlen]
      omega

end JsMap

/-! ## Message model (Baileys `proto.IWebMessageInfo`, as used by the code) -/

/-- A JS value that may sit in `msg.messageTimestamp`: a number, a decimal
string, a protobuf `Long` (exposing `toNumber()`), or `undefined`.
(`src/src/whatsapp/Instance.ts`, `longToNumber`). -/
inductive JsTs where
  | num (n : Int)
  | str (s : String)
  | long (n : Int)
  | undef
deriving Repr, DecidableEq

/-- `Number(s)` on a string, restricted to the decimal-integer strings the
code ever sees; a non-numeric string is `NaN`, modelled as `none`. -/
def jsStringToNumber (s : String) : Option Int := s.toInt?

/-- `msg.key` (`proto.IMessageKey` plus the `remoteJidAlt` field the
handler reads through a cast). -/
structure MsgKey where
  id : Option String
  remoteJid : Option String
  fromMe : Bool := false
  participant : Option String := none
  remoteJidAlt : Option String := none
deriving Repr, DecidableEq

/-- `msg.message` content: the optional fields read by
`extractMessageText` / `resolveTextContent`, plus the object-key list
(`Object.keys(msg.message)`) in property order. -/
structure MsgContent where
  fieldNames : List String := []
  conversation : Option String := none
  extendedTextMessageText : Option String := none
  imageMessageCaption : Option String := none
  videoMessageCaption : Option String := none
deriving Repr, DecidableEq

/-- The slice of `proto.IWebMessageInfo` the embedded code reads. -/
structure Msg where
  key : MsgKey
  messageTimestamp : JsTs := JsTs.undef
  message : Option MsgContent := none
  pushName : Option String := none
deriving Repr, DecidableEq

/-- `WhatsAppInstance.longToNumber` (`src/src/whatsapp/Instance.ts:311`):
numbers pass through, strings go through `Number` with `NaN ↦ 0`,
`Long`s via `toNumber()`, anything else is `0`. -/
def longToNumber : JsTs → Int
  | JsTs.num n => n
  | JsTs.str s => (jsStringToNumber s).getD 0
  | JsTs.long n => n
  | JsTs.undef => 0

/-- `WhatsAppInstance.messageTimestampMs` (`src/src/whatsapp/Instance.ts:304`):
non-positive ↦ 0; values that look like seconds (≤ 10^12) are scaled
to milliseconds. -/
def messageTimestampMs (m : Msg) : Int :=
  let n := longToNumber m.messageTimestamp
  if n ≤ 0 then 0
  else if n > 1000000000000 then n else n * 1000

/-- The `senderJid` resolution in the `messages.upsert` handler
(`src/src/whatsapp/Instance.ts:179`):
`remoteJid?.endsWith('@lid') ? (key.remoteJidAlt || remoteJid) : remoteJid`.
When the primary JID is in LID form, prefer the phone-number alternate. -/
def senderJid (key : MsgKey) : Option String :=
  match key.remoteJid with
  | some r =>
      if jsEndsWith r "@lid" then
        if strTruthy key.remoteJidAlt then key.remoteJidAlt else some r
      else some r
  | none => none

/-- Chat-summary record held in `this.chats`.  The `chats.delete` handler
(the only chat mutation a claim is about) never inspects the record, so
its payload is kept abstract as the raw upsert object. -/
structure ChatRec where
  payload : String
deriving Repr, DecidableEq

/-- The per-instance cache state of `WhatsAppInstance`
(`src/src/whatsapp/Instance.ts:27`): `chats`, `messagesByChat`, plus the
position in the `Math.random()` stream consumed by `cacheMessages`'
fallback message ids. -/
structure InstanceSt where
  chats : JsMap ChatRec := []
  messagesByChat : JsMap (JsMap Msg) := []
  rndCtr : Nat := 0
deriving Repr, DecidableEq

/-- `maxCachedMessagesPerChat` from the constructor
(`src/src/whatsapp/Instance.ts:31`):
`Number(process.env.MAX_CACHED_MESSAGES_PER_CHAT || 500)` guarded by
`Number.isFinite(rawLimit) && rawLimit > 0`, else `500`. -/
def maxCachedMessagesPerChat (env : Option String) : Int :=
  let rawLimit : Option Int :=
    match jsFirstTruthyStr [env] with
    | some s => jsStringToNumber s
    | none => some 500
  match rawLimit with
  | some n => if n > 0 then n else 500
  | none => 500

/-- One iteration of the `cacheMessages` loop
(`src/src/whatsapp/Instance.ts:269`): key the message under its raw
`remoteJid`, insert under `key.id` (falling back to
`timestamp-Math.random()`, modelled by the supply `rnd`), and if the chat
exceeds `cap` entries sort by timestamp ascending and delete the oldest
`overflow` keys. -/
def cacheOne (cap : Nat) (rnd : Nat → String) (acc : JsMap (JsMap Msg) × Nat)
    (msg : Msg) : JsMap (JsMap Msg) × Nat :=
  match jsTruthyStr msg.key.remoteJid with
  | none => acc
  | some jid =>
    let store := acc.1
    let messageId :=
      match jsFirstTruthyStr [msg.key.id] with
      | some i => i
      | none => toString (messageTimestampMs msg) ++ "-" ++ rnd acc.2
    let ctr :=
      match jsFirstTruthyStr [msg.key.id] with
      | some _ => acc.2
      | none => acc.2 + 1
    let existing := (JsMap.mget store jid).getD []
    let inserted := JsMap.mset existing messageId msg
    let pruned :=
      if inserted.length > cap then
        let sorted := inserted.mergeSort
          (fun a b => decide (messageTimestampMs a.2 ≤ messageTimestampMs b.2))
        let overflow := inserted.length - cap
        (sorted.take overflow).foldl (fun m e => JsMap.mdelete m e.1) inserted
      else inserted
    (JsMap.mset store jid pruned, ctr)

/-- `WhatsAppInstance.cacheMessages` over a batch, threading the
`Math.random()` stream position. -/
def cacheMessages (cap : Nat) (rnd : Nat → String) (st : InstanceSt)
    (msgs : List Msg) : InstanceSt :=
  let r := msgs.foldl (cacheOne cap rnd) (st.messagesByChat, st.rndCtr)
  { st with messagesByChat := r.1, rndCtr := r.2 }

/-- `id: msg.key?.id || null` style projections used by
`getChatMessages`' result mapping. -/
def jsOrNull (o : Option String) : Option String := jsTruthyStr o

/-- `extractMessageText` (`src/src/whatsapp/Instance.ts:323`):
`conversation || extendedTextMessage?.text || imageMessage?.caption ||
videoMessage?.caption || ''`. -/
def extractMessageText (m : Msg) : String :=
  (jsFirstTruthyStr
    [m.message.bind MsgContent.conversation,
     m.message.bind MsgContent.extendedTextMessageText,
     m.message.bind MsgContent.imageMessageCaption,
     m.message.bind MsgContent.videoMessageCaption]).getD ""

/-- `msg.message ? Object.keys(msg.message)[0] : 'unknown'` — `none`
models the JS `undefined` produced when the content object has no keys. -/
def msgTypeName (m : Msg) : Option String :=
  match m.message with
  | some c => c.fieldNames.head?
  | none => some "unknown"

/-- The record shape returned by `getChatMessages`
(`src/src/whatsapp/Instance.ts:243`). -/
structure FormattedMsg where
  id : Option String
  remoteJid : Option String
  participant : Option String
  fromMe : Bool
  timestamp : Int
  type : Option String
  content : String
  raw : Msg
deriving Repr, DecidableEq

/-- The `items.map(msg => ({...}))` projection of `getChatMessages`. -/
def formatCached (m : Msg) : FormattedMsg :=
  { id := jsOrNull m.key.id
    remoteJid := jsOrNull m.key.remoteJid
    participant := jsOrNull m.key.participant
    fromMe := m.key.fromMe
    timestamp := messageTimestampMs m
    type := msgTypeName m
    content := extractMessageText m
    raw := m }

/-- `WhatsAppInstance.getChatMessages` (`src/src/whatsapp/Instance.ts:228`):
sort the chat's cached messages ascending by timestamp, filter to
strictly-before `beforeTimestamp` when that value is truthy and finite,
keep the most recent `limit` entries, and format. -/
def getChatMessages (st : InstanceSt) (jid : String) (limit : Nat)
    (beforeTimestamp : Option Int) : List FormattedMsg :=
  match JsMap.mget st.messagesByChat jid with
  | none => []
  | some map =>
    let items := JsMap.vals map
    let items := items.mergeSort
      (fun a b => decide (messageTimestampMs a ≤ messageTimestampMs b))
    let items :=
      match beforeTimestamp with
      | some b => if b ≠ 0 then items.filter (fun m => messageTimestampMs m < b) else items
      | none => items
    let items := if items.length > limit then items.drop (items.length - limit) else items
    items.map formatCached

/-- The `chats.delete` handler (`src/src/whatsapp/Instance.ts:144`):
for each listed jid, drop both the chat summary and the whole per-chat
message cache. -/
def chatsDelete (st : InstanceSt) (jids : List String) : InstanceSt :=
  jids.foldl
    (fun st jid =>
      { st with
        chats := JsMap.mdelete st.chats jid
        messagesByChat := JsMap.mdelete st.messagesByChat jid })
    st

/-! ## MessageDeduper (`src/src/lib/Deduper.ts`) -/

/-- State of a `MessageDeduper`: the TTL passed to `node-cache`
(`stdTTL`, seconds) and the cache contents, mapping a message id to its
`node-cache` expiry instant `t` in ms (`t = 0` would mean "no expiry"). -/
structure DeduperSt where
  ttlSeconds : Nat
  entries : JsMap Int
deriving Repr, DecidableEq

/-- `new MessageDeduper(ttlSeconds = 60)` (`src/src/lib/Deduper.ts:6`). -/
def MessageDeduper_new (ttlSeconds : Nat := 60) : DeduperSt :=
  { ttlSeconds := ttlSeconds, entries := [] }

/-- `node-cache`'s stored expiry for a fresh entry:
`stdTTL = 0 ↦ 0`, else `Date.now() + ttl * 1000`. -/
def ncExpiry (st : DeduperSt) (now : Int) : Int :=
  if st.ttlSeconds = 0 then 0 else now + (st.ttlSeconds : Int) * 1000

/-- `node-cache` liveness check used by `has`: an entry is expired iff
`t ≠ 0 && t < Date.now()` (expired entries are deleted on access). -/
def ncExpired (t now : Int) : Prop := t ≠ 0 ∧ t < now

instance (t now : Int) : Decidable (ncExpired t now) := by
  unfold ncExpired; infer_instance

/-- `MessageDeduper.shouldIgnore` (`src/src/lib/Deduper.ts:14`) at wall
time `now`: `cache.has(id)` returns `true` for a live entry (duplicate,
state untouched); otherwise the id is (re)inserted with a fresh TTL and
`false` is returned. -/
def shouldIgnore (now : Int) (st : DeduperSt) (id : String) : Bool × DeduperSt :=
  match JsMap.mget st.entries id with
  | some t =>
    if ncExpired t now then
      (false, { st with entries := JsMap.mset (JsMap.mdelete st.entries id) id (ncExpiry st now) })
    else
      (true, st)
  | none =>
    (false, { st with entries := JsMap.mset st.entries id (ncExpiry st now) })

/-! ## ConnectionStaggerer (`src/src/lib/Staggerer.ts`) -/

/-- A unit of work handed to `schedule`: how long the task runs before it
settles, and whether its promise resolves or rejects. -/
structure StagTask where
  duration : Nat
  succeeds : Bool
deriving Repr, DecidableEq

/-- Virtual-time run of `ConnectionStaggerer.schedule`
(`src/src/lib/Staggerer.ts:12`) for a FIFO queue at concurrency 1:
each queue item runs `await task()` and only then
`await setTimeout(delayMs)`; a rejecting `task()` aborts the wrapper, so
the pacing sleep is skipped and `p-queue` starts the next item at the
rejection instant.  Returns `(begin, settle)` times per task. -/
def runSchedule (delayMs : Nat) : Nat → List StagTask → List (Nat × Nat)
  | _, [] => []
  | t, task :: rest =>
    let settle := t + task.duration
    let next := if task.succeeds then settle + delayMs else settle
    (t, settle) :: runSchedule delayMs next rest

/-! ## Connection-close handling (`src/src/whatsapp/Instance.ts:97`) -/

/-- `DisconnectReason.loggedOut` from Baileys (HTTP 401). -/
def DisconnectReason_loggedOut : Nat := 401

/-- `${statusCode}` interpolation of a possibly-undefined JS number. -/
def showStatusCode : Option Nat → String
  | some n => toString n
  | none => "undefined"

/-- Observable outcome of the `connection === 'close'` branch. -/
structure CloseOutcome where
  lastError : String
  reconnects : Bool
  removesSessionDir : Bool
deriving Repr, DecidableEq

/-- The `connection.update` close branch
(`src/src/whatsapp/Instance.ts:97`): record the error, and either re-run
`init()` (`statusCode !== DisconnectReason.loggedOut`) or delete the
session's credential directory and stop. -/
def handleConnectionClose (statusCode : Option Nat) (errMessage : Option String) :
    CloseOutcome :=
  let message := (jsFirstTruthyStr [errMessage]).getD "Unknown error"
  let shouldReconnect := statusCode ≠ some DisconnectReason_loggedOut
  { lastError := "Connection closed: " ++ message ++ " (" ++ showStatusCode statusCode ++ ")"
    reconnects := decide shouldReconnect
    removesSessionDir := decide ¬shouldReconnect }

/-! ## WhatsAppManager (`src/src/whatsapp/SocketManager.ts`) -/

/-- Registry state: the `instances` map (session id ↦ instance token),
a fresh-token allocator standing for `new WhatsAppInstance(...)`, and the
list of instance tokens whose `init()` has been handed to the staggerer,
in scheduling order. -/
structure MgrSt where
  instances : JsMap Nat := []
  nextToken : Nat := 0
  scheduled : List Nat := []
deriving Repr, DecidableEq

/-- `WhatsAppManager.getInstance` (`src/src/whatsapp/SocketManager.ts:9`).
The body from map lookup to `staggerer.schedule` is one synchronous
section with no intervening `await`, so on the single-threaded event loop
concurrent callers observe it atomically; it is therefore modelled as one
state transition. -/
def getInstance (st : MgrSt) (sessionId : String) : Nat × MgrSt :=
  match JsMap.mget st.instances sessionId with
  | some inst => (inst, st)
  | none =>
    let inst := st.nextToken
    (inst,
      { instances := JsMap.mset st.instances sessionId inst
        nextToken := st.nextToken + 1
        scheduled := st.scheduled ++ [inst] })

/-! ## PostgresMessageWriter (`src/unnamed/part_003`) -/

/-- A row of `et_channel_sessions` as read by `resolveSession`. -/
structure ChannelSessionRow where
  id : Int
  tenantId : Int
  channelType : String
  sessionIdentifier : String
deriving Repr, DecidableEq

/-- A row of `et_leads` as read by `resolveLead`. -/
structure LeadRow where
  id : Int
  tenantId : Int
  externalId : String
deriving Repr, DecidableEq

/-- The columns of `et_messages` written by `storeInboundMessage`. -/
structure MessageRow where
  tenantId : Int
  leadId : Int
  threadId : Option Int
  channelSessionId : Option Int
  channel : String
  externalMessageId : String
  direction : String
  messageType : String
  textContent : Option String
  mediaUrl : Option String
  rawPayload : Msg
  deliveryStatus : String
  createdAt : Int
  updatedAt : Int
deriving Repr, DecidableEq

/-- `resolveSession`'s cached result. -/
structure SessionInfo where
  channelSessionId : Int
  tenantId : Int
deriving Repr, DecidableEq

/-- Database + writer state threaded through `storeInboundMessage`:
the three tables and the writer's `sessionCache`
(`Map<string, SessionInfo | null>`). -/
structure WriterSt where
  channelSessions : List ChannelSessionRow
  leads : List LeadRow
  messages : List MessageRow
  sessionCache : JsMap (Option SessionInfo) := []
deriving Repr, DecidableEq

/-- `jid.split('@')[0].replace(/\D/g, '')`: digits of the part before the
first `@` (the first `split` component is the maximal `@`-free prefix of
the string, i.e. a `takeWhile`). -/
def digitsOfJid (jid : String) : String :=
  String.mk ((jid.toList.takeWhile (fun c => c ≠ '@')).filter Char.isDigit)

/-- `regexp_replace(external_id, '\D', '', 'g')`. -/
def digitsOfExternalId (s : String) : String :=
  String.mk (s.toList.filter Char.isDigit)

/-- `resolveSession` (`src/unnamed/part_003:48`): cached lookup of
`et_channel_sessions` by `channel_type = 'whatsapp'` and
`session_identifier`, `LIMIT 1` in table order. -/
def resolveSession (st : WriterSt) (sessionId : String) :
    Option SessionInfo × WriterSt :=
  match JsMap.mget st.sessionCache sessionId with
  | some cached => (cached, st)
  | none =>
    match st.channelSessions.find?
        (fun r => r.channelType = "whatsapp" ∧ r.sessionIdentifier = sessionId) with
    | none =>
        (none, { st with sessionCache := JsMap.mset st.sessionCache sessionId none })
    | some r =>
        (some { channelSessionId := r.id, tenantId := r.tenantId },
          { st with sessionCache :=
              JsMap.mset st.sessionCache sessionId (some { channelSessionId := r.id, tenantId := r.tenantId }) })

/-- `resolveLead` (`src/unnamed/part_003:79`): empty digit string resolves
to nothing; otherwise the matching lead of the tenant with the smallest
`id` (`ORDER BY id ASC LIMIT 1`). -/
def resolveLead (st : WriterSt) (tenantId : Int) (remoteJid : String) : Option Int :=
  let digits := digitsOfJid remoteJid
  if digits = "" then none
  else
    let matching := st.leads.filter
      (fun l => l.tenantId = tenantId ∧ digitsOfExternalId l.externalId = digits)
    let ordered := matching.mergeSort (fun a b => decide (a.id ≤ b.id))
    (ordered.head?).map LeadRow.id

/-- `resolveMessageType` (`src/unnamed/part_003:172`), over the modelled
content fields; remaining kinds fall through to the first object key. -/
def resolveMessageType (m : Msg) : String :=
  match m.message with
  | none => "unknown"
  | some c =>
    if strTruthy c.conversation ∨ c.extendedTextMessageText ≠ none then "text"
    else if c.imageMessageCaption ≠ none then "image"
    else if c.videoMessageCaption ≠ none then "video"
    else (c.fieldNames.head?).getD "unknown"

/-- `resolveTextContent` (`src/unnamed/part_003:188`). -/
def resolveTextContent (m : Msg) : Option String :=
  match m.message with
  | none => none
  | some _ =>
    jsFirstTruthyStr
      [m.message.bind MsgContent.conversation,
       m.message.bind MsgContent.extendedTextMessageText,
       m.message.bind MsgContent.imageMessageCaption,
       m.message.bind MsgContent.videoMessageCaption]

/-- The uniqueness key of `et_messages`:
`(tenant_id, channel, external_message_id)`. -/
def sameMsgKey (a b : MessageRow) : Prop :=
  a.tenantId = b.tenantId ∧ a.channel = b.channel ∧
    a.externalMessageId = b.externalMessageId

instance (a b : MessageRow) : Decidable (sameMsgKey a b) := by
  unfold sameMsgKey; infer_instance

/-- The `INSERT … ON CONFLICT (tenant_id, channel, external_message_id)
DO UPDATE SET raw_payload = EXCLUDED.raw_payload, updated_at = NOW()`
statement (`src/unnamed/part_003:136`): append when no row carries the
key, else update the conflicting row in place. -/
def upsertEtMessage (tbl : List MessageRow) (r : MessageRow) : List MessageRow :=
  if tbl.any (fun x => decide (sameMsgKey x r)) then
    tbl.map (fun x =>
      if sameMsgKey x r then
        { x with rawPayload := r.rawPayload, updatedAt := r.updatedAt }
      else x)
  else tbl ++ [r]

/-- `storeInboundMessage` (`src/unnamed/part_003:96`): bail out without a
pool, message id or remote jid; resolve the session (cached) and the lead;
then upsert the row.  `hasPool` models `DATABASE_URL` being configured and
`now` the SQL `NOW()`. -/
def storeInboundMessage (hasPool : Bool) (now : Int) (st : WriterSt)
    (sessionId : String) (msg : Msg) : WriterSt :=
  if ¬ hasPool then st else
  match jsTruthyStr msg.key.id, jsTruthyStr msg.key.remoteJid with
  | some messageId, some remoteJid =>
    let r := resolveSession st sessionId
    match r.1 with
    | none => r.2
    | some session =>
      let senderJid := (jsFirstTruthyStr [msg.key.participant]).getD remoteJid
      match resolveLead r.2 session.tenantId senderJid with
      | none => r.2
      | some leadId =>
        let row : MessageRow :=
          { tenantId := session.tenantId
            leadId := leadId
            threadId := none
            channelSessionId := some session.channelSessionId
            channel := "whatsapp"
            externalMessageId := messageId
            direction := "inbound"
            messageType := resolveMessageType msg
            textContent := resolveTextContent msg
            mediaUrl := none
            rawPayload := msg
            deliveryStatus := "received"
            createdAt := now
            updatedAt := now }
        { r.2 with messages := upsertEtMessage r.2.messages row }
  | _, _ => st

/-! ## Credential-save serialization (`src/src/whatsapp/Instance.ts:76`)

`atomicSave` wraps `saveCreds()` in `this.saveMutex.runExclusive(...)`,
where `saveMutex` is an instance field of `WhatsAppInstance` — one mutex
per Session, not a global one.  `async-mutex`'s contract is that
`runExclusive` runs its callback only while holding the mutex.  The model
below is a small-step system over save requests: a request can be enqueued
at any time (a `creds.update` event), starts executing only when no save
of the same session is executing (that session's mutex is free), and
releases on completion. -/

/-- A credential-save request: the owning session and a request token. -/
structure SaveReq where
  session : String
  token : Nat
deriving Repr, DecidableEq

/-- Pending / executing / completed save requests. -/
structure SaveSys where
  pending : List SaveReq
  running : List SaveReq
  done : List SaveReq
deriving Repr, DecidableEq

/-- One scheduler step of the per-session save machinery. -/
inductive SaveStep : SaveSys → SaveSys → Prop
  | enqueue (r : SaveReq) (s : SaveSys) :
      SaveStep s { s with pending := s.pending ++ [r] }
  | acquire (r : SaveReq) (s : SaveSys) :
      r ∈ s.pending →
      (∀ q ∈ s.running, q.session ≠ r.session) →
      SaveStep s { s with pending := s.pending.erase r, running := s.running ++ [r] }
  | release (r : SaveReq) (s : SaveSys) :
      r ∈ s.running →
      SaveStep s { s with running := s.running.erase r, done := s.done ++ [r] }

/-- Reachability of the save system from an initial state. -/
inductive SaveReachable (init : SaveSys) : SaveSys → Prop
  | refl : SaveReachable init init
  | step {s t : SaveSys} : SaveReachable init s → SaveStep s t → SaveReachable init t

/-- `export const deduper = new MessageDeduper();`
(`src/src/lib/Deduper.ts:23`). -/
def deduper : DeduperSt := MessageDeduper_new

/-! ## Theorems -/

/-- C3: the first `shouldIgnore(id)` call in an active window returns
`false` and marks the id present with a TTL of 60 s from insertion; every
call with the same id before that entry expires returns `true` and leaves
the cache untouched (the TTL is independent of query activity); a call
after the TTL has expired returns `false` again (and re-marks the id). -/
theorem shouldIgnore_false_once_per_ttl_window
    (st : DeduperSt) (id : String) (t0 : Int)
    (httl : st.ttlSeconds = 60) (ht0 : 0 ≤ t0)
    (hfresh : JsMap.mget st.entries id = none) :
    deduper.ttlSeconds = 60
    ∧ (shouldIgnore t0 st id).1 = false
    ∧ JsMap.mget (shouldIgnore t0 st id).2.entries id = some (t0 + 60000)
    ∧ (∀ t1 : Int, t1 ≤ t0 + 60000 →
        shouldIgnore t1 (shouldIgnore t0 st id).2 id = (true, (shouldIgnore t0 st id).2))
    ∧ (∀ t2 : Int, t0 + 60000 < t2 →
        (shouldIgnore t2 (shouldIgnore t0 st id).2 id).1 = false
        ∧ JsMap.mget (shouldIgnore t2 (shouldIgnore t0 st id).2 id).2.entries id
            = some (t2 + 60000)) := by
  have hstep : shouldIgnore t0 st id
      = (false, { st with entries := JsMap.mset st.entries id (ncExpiry st t0) }) := by
    unfold shouldIgnore
    rw [hfresh]
  have hexp : ncExpiry st t0 = t0 + 60000 := by
    unfold ncExpiry
    rw [httl]
    norm_num
  have hget1 : JsMap.mget
      ({ st with entries := JsMap.mset st.entries id (ncExpiry st t0) } : DeduperSt).entries id
      = some (t0 + 60000) := by
    simpa [hexp] using JsMap.mget_mset_self st.entries id (ncExpiry st t0)
  have hget : JsMap.mget (shouldIgnore t0 st id).2.entries id = some (t0 + 60000) := by
    rw [hstep]
    exact hget1
  refine ⟨rfl, by rw [hstep], hget, ?_, ?_⟩
  · intro t1 h1
    rw [hstep]
    have hne : ¬ ncExpired (t0 + 60000) t1 := by
      unfold ncExpired
      intro hx
      omega
    simp only [shouldIgnore, hget1, if_neg hne]
  · intro t2 h2
    rw [hstep]
    have hex : ncExpired (t0 + 60000) t2 := by
      unfold ncExpired
      constructor
      · omega
      · exact h2
    have hexp2 : ncExpiry
        ({ st with entries := JsMap.mset st.entries id (ncExpiry st t0) } : DeduperSt) t2
        = t2 + 60000 := by
      unfold ncExpiry
      simp only []
      rw [httl]
      norm_num
    constructor
    · simp only [shouldIgnore, hget1, if_pos hex]
    · simp only [shouldIgnore, hget1, if_pos hex]
      simpa [hexp2] using
        JsMap.mget_mset_self
          (JsMap.mdelete (JsMap.mset st.entries id (ncExpiry st t0)) id) id
          (ncExpiry ({ st with entries := JsMap.mset st.entries id (ncExpiry st t0) } : DeduperSt) t2)

/-- Witness for C3 at a concrete run: id `"m1"` inserted at `t = 0` into a
fresh default deduper, queried again at `59999` (duplicate) and at
`60001` (accepted again). -/
theorem shouldIgnore_false_once_per_ttl_window_witness :
    (shouldIgnore 0 deduper "m1").1 = false
    ∧ shouldIgnore 59999 (shouldIgnore 0 deduper "m1").2 "m1"
        = (true, (shouldIgnore 0 deduper "m1").2)
    ∧ (shouldIgnore 60001 (shouldIgnore 0 deduper "m1").2 "m1").1 = false := by
  have h := shouldIgnore_false_once_per_ttl_window deduper "m1" 0 rfl (by norm_num) rfl
  exact ⟨h.2.1, h.2.2.2.1 59999 (by norm_num), (h.2.2.2.2 60001 (by norm_num)).1⟩

/-- C6 (amended reading is not needed — the code matches): a close event
whose status code is `DisconnectReason.loggedOut` does not re-run
`init()` and removes the session's credential directory; every other
status code (including an absent one) triggers a new `init()` and keeps
the directory. -/
theorem connectionClose_logout_terminal_otherwise_reconnect (em : Option String) :
    ((handleConnectionClose (some DisconnectReason_loggedOut) em).reconnects = false
      ∧ (handleConnectionClose (some DisconnectReason_loggedOut) em).removesSessionDir = true)
    ∧ (∀ sc : Option Nat, sc ≠ some DisconnectReason_loggedOut →
        (handleConnectionClose sc em).reconnects = true
        ∧ (handleConnectionClose sc em).removesSessionDir = false) := by
  constructor
  · constructor <;> simp [handleConnectionClose]
  · intro sc hsc
    constructor <;> simp [handleConnectionClose, hsc]

/-- Witness for C6: explicit logout (401) versus a
`connectionClosed`-style code (428) and an absent status code. -/
theorem connectionClose_logout_terminal_otherwise_reconnect_witness :
    (handleConnectionClose (some 401) none).reconnects = false
    ∧ (handleConnectionClose (some 401) none).removesSessionDir = true
    ∧ (handleConnectionClose (some 428) none).reconnects = true
    ∧ (handleConnectionClose (some 428) none).removesSessionDir = false
    ∧ (handleConnectionClose none none).reconnects = true := by
  have h := connectionClose_logout_terminal_otherwise_reconnect none
  have h428 := h.2 (some 428) (by simp [DisconnectReason_loggedOut])
  have hnone := h.2 none (by simp)
  exact ⟨h.1.1, h.1.2, h428.1, h428.2, hnone.1⟩

/-- C8: `getInstance` returns the registered instance when one exists (no
new scheduling); otherwise it creates one instance, registers it and
appends exactly one entry to the staggerer's schedule; a second call for
the same id returns the same instance and changes nothing (so two calls
schedule exactly one initialization), and key-uniqueness of the registry
is preserved. -/
theorem getInstance_one_live_instance_per_id (st : MgrSt) (sid : String) :
    (getInstance (getInstance st sid).2 sid).1 = (getInstance st sid).1
    ∧ (getInstance (getInstance st sid).2 sid).2 = (getInstance st sid).2
    ∧ (∀ inst, JsMap.mget st.instances sid = some inst →
        getInstance st sid = (inst, st))
    ∧ (JsMap.mget st.instances sid = none →
        JsMap.mget (getInstance st sid).2.instances sid = some (getInstance st sid).1
        ∧ (getInstance st sid).2.scheduled = st.scheduled ++ [(getInstance st sid).1])
    ∧ (JsMap.KeysNodup st.instances → JsMap.KeysNodup (getInstance st sid).2.instances) := by
  rcases hg : JsMap.mget st.instances sid with _ | inst
  · have h1 : getInstance st sid =
        (st.nextToken,
          { instances := JsMap.mset st.instances sid st.nextToken
            nextToken := st.nextToken + 1
            scheduled := st.scheduled ++ [st.nextToken] }) := by
      unfold getInstance
      rw [hg]
    have h2 : JsMap.mget (getInstance st sid).2.instances sid = some st.nextToken := by
      rw [h1]
      exact JsMap.mget_mset_self st.instances sid st.nextToken
    have h3 : getInstance (getInstance st sid).2 sid
        = ((getInstance st sid).1, (getInstance st sid).2) := by
      rw [h1]
      simp only [getInstance, JsMap.mget_mset_self]
    refine ⟨by rw [h3], by rw [h3], ?_, ?_, ?_⟩
    · intro inst hi
      exact Option.noConfusion hi
    · intro _
      exact ⟨by rw [h2, h1], by rw [h1]⟩
    · intro hnd
      rw [h1]
      exact JsMap.keysNodup_mset st.instances sid st.nextToken hnd
  · have h1 : getInstance st sid = (inst, st) := by
      unfold getInstance
      rw [hg]
    have h3 : getInstance (getInstance st sid).2 sid
        = ((getInstance st sid).1, (getInstance st sid).2) := by
      rw [h1]
      exact h1
    refine ⟨by rw [h3], by rw [h3], ?_, ?_, ?_⟩
    · intro inst2 hi
      have hinst : inst = inst2 := Option.some.inj hi
      rw [← hinst]
      exact h1
    · intro hn
      exact Option.noConfusion hn
    · intro hnd
      rw [h1]
      exact hnd

/-- Witness for C8: a fresh registry sees `"acct-1"` created once; the
repeated call returns the same token and schedules nothing further. -/
theorem getInstance_one_live_instance_per_id_witness :
    (getInstance (getInstance {} "acct-1").2 "acct-1").1 = (getInstance {} "acct-1").1
    ∧ (getInstance {} "acct-1").2.scheduled = [] ++ [(getInstance {} "acct-1").1]
    ∧ (getInstance (getInstance {} "acct-1").2 "acct-1").2.scheduled
        = (getInstance {} "acct-1").2.scheduled := by
  have h := getInstance_one_live_instance_per_id {} "acct-1"
  exact ⟨h.1, (h.2.2.2.1 rfl).2, by rw [h.2.1]⟩

/-- C10: processing a `chats.delete` event removes, for each listed key,
both the chat summary and the whole per-chat message collection, and
leaves every other key's summary and collection unchanged. -/
theorem chatsDelete_removes_listed_keys_only (st : InstanceSt)
    (jids : List String) (k : String) :
    (k ∈ jids →
      JsMap.mget (chatsDelete st jids).chats k = none
      ∧ JsMap.mget (chatsDelete st jids).messagesByChat k = none)
    ∧ (k ∉ jids →
      JsMap.mget (chatsDelete st jids).chats k = JsMap.mget st.chats k
      ∧ JsMap.mget (chatsDelete st jids).messagesByChat k
          = JsMap.mget st.messagesByChat k) := by
  induction jids generalizing st with
  | nil =>
    constructor
    · intro h
      cases h
    · intro _
      exact ⟨rfl, rfl⟩
  | cons j rest ih =>
    have hstep : chatsDelete st (j :: rest) =
        chatsDelete
          { st with
            chats := JsMap.mdelete st.chats j
            messagesByChat := JsMap.mdelete st.messagesByChat j }
          rest := rfl
    constructor
    · intro hmem
      rcases List.mem_cons.mp hmem with hk | hk
      · subst hk
        by_cases hr : k ∈ rest
        · rw [hstep]
          exact (ih _).1 hr
        · rw [hstep]
          have := (ih { st with
            chats := JsMap.mdelete st.chats k
            messagesByChat := JsMap.mdelete st.messagesByChat k }).2 hr
          refine ⟨?_, ?_⟩
          · rw [this.1]
            exact JsMap.mget_mdelete_self st.chats k
          · rw [this.2]
            exact JsMap.mget_mdelete_self st.messagesByChat k
      · rw [hstep]
        exact (ih _).1 hk
    · intro hmem
      have hj : j ≠ k := fun hh => hmem (by rw [hh]; exact List.mem_cons_self _ _)
      have hr : k ∉ rest := fun hh => hmem (List.mem_cons_of_mem _ hh)
      rw [hstep]
      have := (ih { st with
        chats := JsMap.mdelete st.chats j
        messagesByChat := JsMap.mdelete st.messagesByChat j }).2 hr
      refine ⟨?_, ?_⟩
      · rw [this.1]
        exact JsMap.mget_mdelete_ne st.chats j k hj
      · rw [this.2]
        exact JsMap.mget_mdelete_ne st.messagesByChat j k hj

/-- Witness for C10: deleting `["a"]` from a two-chat cache removes chat
`"a"` (summary and messages) and leaves chat `"b"` intact. -/
theorem chatsDelete_removes_listed_keys_only_witness :
    JsMap.mget (chatsDelete
        { chats := [("a", ⟨"ca"⟩), ("b", ⟨"cb"⟩)]
          messagesByChat := [("a", []), ("b", [])]
          rndCtr := 0 } ["a"]).chats "a" = none
    ∧ JsMap.mget (chatsDelete
        { chats := [("a", ⟨"ca"⟩), ("b", ⟨"cb"⟩)]
          messagesByChat := [("a", []), ("b", [])]
          rndCtr := 0 } ["a"]).messagesByChat "a" = none
    ∧ JsMap.mget (chatsDelete
        { chats := [("a", ⟨"ca"⟩), ("b", ⟨"cb"⟩)]
          messagesByChat := [("a", []), ("b", [])]
          rndCtr := 0 } ["a"]).chats "b" = some ⟨"cb"⟩ := by
  have h := chatsDelete_removes_listed_keys_only
    { chats := [("a", ⟨"ca"⟩), ("b", ⟨"cb"⟩)]
      messagesByChat := [("a", []), ("b", [])]
      rndCtr := 0 } ["a"] "a"
  have hb := chatsDelete_removes_listed_keys_only
    { chats := [("a", ⟨"ca"⟩), ("b", ⟨"cb"⟩)]
      messagesByChat := [("a", []), ("b", [])]
      rndCtr := 0 } ["a"] "b"
  have hmem : "a" ∈ ["a"] := List.mem_cons_self _ _
  have hnmem : "b" ∉ ["a"] := by decide
  refine ⟨(h.1 hmem).1, (h.1 hmem).2, ?_⟩
  rw [(hb.2 hnmem).1]
  decide

/-- Begin time of the first queued task: it starts as soon as the queue
reaches it. -/
theorem runSchedule_head_begin (delayMs t : Nat) (tasks : List StagTask)
    (h : tasks ≠ []) : ((runSchedule delayMs t tasks).getD 0 (0, 0)).1 = t := by
  cases tasks with
  | nil => exact absurd rfl h
  | cons a rest => rfl

/-- C2 counterexample: with the default 3000 ms pacing delay, a first
task that rejects after 5 ms is followed by a task that begins at time 5,
not at `settle + 3000 = 3005` — the claim that the next task "begins only
after the full pacing delay elapses" fails when a task's promise
rejects. -/
theorem staggerer_failure_skips_delay_cex :
    runSchedule 3000 0 [⟨5, false⟩, ⟨1, true⟩] = [(0, 5), (5, 6)]
    ∧ ((runSchedule 3000 0 [⟨5, false⟩, ⟨1, true⟩]).getD 1 (0, 0)).1
        < ((runSchedule 3000 0 [⟨5, false⟩, ⟨1, true⟩]).getD 0 (0, 0)).2 + 3000 := by
  constructor
  · rfl
  · decide

/-- C2 (amended): a failing task does not block the queue — every
scheduled task still begins and settles (`length` is preserved) and the
pacer advances unconditionally after the current task settles; but the
pacing delay is applied only after a task that succeeds: after a failure
the next task begins immediately at the settle instant
(`delay` contribution 0). -/
theorem staggerer_advances_unconditionally (delayMs t : Nat) (tasks : List StagTask) :
    (runSchedule delayMs t tasks).length = tasks.length
    ∧ (∀ k : Nat, k + 1 < tasks.length →
        ((runSchedule delayMs t tasks).getD (k + 1) (0, 0)).1
          = ((runSchedule delayMs t tasks).getD k (0, 0)).2
            + (if (tasks.getD k ⟨0, true⟩).succeeds then delayMs else 0)) := by
  constructor
  · induction tasks generalizing t with
    | nil => rfl
    | cons a rest ih =>
      simp only [runSchedule, List.length_cons]
      rw [ih]
  · induction tasks generalizing t with
    | nil =>
      intro k hk
      simp at hk
    | cons a rest ih =>
      intro k hk
      cases k with
      | zero =>
        have hrest : rest ≠ [] := by
          intro hh
          rw [hh] at hk
          simp at hk
        have hnext : (if a.succeeds then t + a.duration + delayMs else t + a.duration)
            = t + a.duration + (if a.succeeds then delayMs else 0) := by
          by_cases hs : a.succeeds <;> simp [hs]
        show ((runSchedule delayMs
            (if a.succeeds then t + a.duration + delayMs else t + a.duration) rest).getD 0 (0, 0)).1
          = (t + a.duration) + (if a.succeeds then delayMs else 0)
        rw [runSchedule_head_begin _ _ _ hrest, hnext]
      | succ j =>
        have hj : j + 1 < rest.length := by
          simp only [List.length_cons] at hk
          omega
        exact ih _ j hj

/-- Witness for C2 (amended) at the counterexample schedule: the second
task begins exactly at the first task's settle time (failure ⇒ zero
delay contribution). -/
theorem staggerer_advances_unconditionally_witness :
    (runSchedule 3000 0 [⟨5, false⟩, ⟨1, true⟩]).length = 2
    ∧ ((runSchedule 3000 0 [⟨5, false⟩, ⟨1, true⟩]).getD 1 (0, 0)).1
        = ((runSchedule 3000 0 [⟨5, false⟩, ⟨1, true⟩]).getD 0 (0, 0)).2
          + (if (([⟨5, false⟩, ⟨1, true⟩] : List StagTask).getD 0 ⟨0, true⟩).succeeds
              then 3000 else 0) := by
  have h := staggerer_advances_unconditionally 3000 0 [⟨5, false⟩, ⟨1, true⟩]
  exact ⟨h.1, h.2 0 (by decide)⟩

/-- C9: credential saves are strictly serialized per Session — in every
state reachable from a quiescent start, no two save requests of the same
session execute concurrently (their sessions in `running` are pairwise
distinct); and the exclusion region is scoped per Session, not global:
saves of two different sessions can be running at the same time. -/
theorem credential_saves_serialized_per_session :
    (∀ (init s : SaveSys), init.running = [] → SaveReachable init s →
      s.running.Pairwise (fun a b => a.session ≠ b.session))
    ∧ (∃ s : SaveSys,
        SaveReachable { pending := [⟨"s1", 0⟩, ⟨"s2", 1⟩], running := [], done := [] } s
        ∧ (⟨"s1", 0⟩ : SaveReq) ∈ s.running ∧ (⟨"s2", 1⟩ : SaveReq) ∈ s.running) := by
  constructor
  · intro init s h0 hreach
    induction hreach with
    | refl =>
      rw [h0]
      exact List.Pairwise.nil
    | @step s1 t1 hr hstep ih =>
      cases hstep with
      | enqueue r s2 => exact ih
      | acquire r s2 hmem hfree =>
        refine List.pairwise_append.mpr ⟨ih, List.pairwise_singleton _ _, ?_⟩
        intro a ha b hb
        have hb1 : b = r := List.mem_singleton.mp hb
        rw [hb1]
        exact hfree a ha
      | release r s2 hmem =>
        exact List.Pairwise.sublist (List.erase_sublist r s1.running) ih
  · refine ⟨_, SaveReachable.step
      (SaveReachable.step SaveReachable.refl
        (SaveStep.acquire ⟨"s1", 0⟩ _ (by simp) (by intro q hq; simp at hq)))
      (SaveStep.acquire ⟨"s2", 1⟩ _ (by simp [List.erase]) ?_), ?_, ?_⟩
    · intro q hq
      simp only [List.nil_append, List.mem_singleton] at hq
      rw [hq]
      simp
    · simp
    · simp

/-- Witness for C9: the serialization invariant applied at a concrete
quiescent initial state and the empty reachability trace. -/
theorem credential_saves_serialized_per_session_witness :
    (({ pending := [⟨"s1", 0⟩], running := [], done := [] } : SaveSys)).running.Pairwise
      (fun a b => a.session ≠ b.session) :=
  credential_saves_serialized_per_session.1
    { pending := [⟨"s1", 0⟩], running := [], done := [] }
    { pending := [⟨"s1", 0⟩], running := [], done := [] }
    rfl SaveReachable.refl

theorem jsTruthyStr_of_ne (s : String) (h : s ≠ "") :
    jsTruthyStr (some s) = some s := by
  simp [jsTruthyStr, strTruthy, h]

/-- Boolean predicate for "row carries the uniqueness key
`(tenant, 'whatsapp', externalMessageId)`". -/
def msgKeyPred (t : Int) (i : String) (x : MessageRow) : Bool :=
  decide (x.tenantId = t ∧ x.channel = "whatsapp" ∧ x.externalMessageId = i)

/-- Number of `et_messages` rows carrying the given uniqueness key. -/
def whatsappRowCount (tbl : List MessageRow) (t : Int) (i : String) : Nat :=
  (tbl.filter (msgKeyPred t i)).length

theorem upsertEtMessage_fresh (tbl : List MessageRow) (r : MessageRow)
    (h : ¬ tbl.any (fun x => decide (sameMsgKey x r)) = true) :
    upsertEtMessage tbl r = tbl ++ [r] := by
  unfold upsertEtMessage
  rw [if_neg h]

theorem whatsappRowCount_append (tbl : List MessageRow) (r : MessageRow)
    (t : Int) (i : String) :
    whatsappRowCount (tbl ++ [r]) t i
      = whatsappRowCount tbl t i + (if msgKeyPred t i r then 1 else 0) := by
  unfold whatsappRowCount
  rw [List.filter_append]
  by_cases h : msgKeyPred t i r <;> simp [h]

theorem whatsappRowCount_upsert_conflict (tbl : List MessageRow) (r : MessageRow)
    (t : Int) (i : String)
    (h : tbl.any (fun x => decide (sameMsgKey x r)) = true) :
    whatsappRowCount (upsertEtMessage tbl r) t i = whatsappRowCount tbl t i := by
  unfold upsertEtMessage
  rw [if_pos h]
  unfold whatsappRowCount
  clear h
  induction tbl with
  | nil => rfl
  | cons x rest ih =>
    simp only [List.map_cons, List.filter_cons]
    have hpres : msgKeyPred t i
        (if sameMsgKey x r then
          { x with rawPayload := r.rawPayload, updatedAt := r.updatedAt }
         else x) = msgKeyPred t i x := by
      by_cases hx : sameMsgKey x r
      · rw [if_pos hx]
        unfold msgKeyPred
        rfl
      · rw [if_neg hx]
    rw [hpres]
    by_cases hp : msgKeyPred t i x
    · simp only [hp, if_true, List.length_cons]
      rw [ih]
    · simp only [hp, Bool.false_eq_true, if_false]
      exact ih

theorem length_upsert_conflict (tbl : List MessageRow) (r : MessageRow)
    (h : tbl.any (fun x => decide (sameMsgKey x r)) = true) :
    (upsertEtMessage tbl r).length = tbl.length := by
  unfold upsertEtMessage
  rw [if_pos h]
  exact List.length_map _ _

theorem resolveSession_fields (st : WriterSt) (sid : String) :
    (resolveSession st sid).2.messages = st.messages
    ∧ (resolveSession st sid).2.leads = st.leads
    ∧ (resolveSession st sid).2.channelSessions = st.channelSessions := by
  unfold resolveSession
  split
  · exact ⟨rfl, rfl, rfl⟩
  · split
    · exact ⟨rfl, rfl, rfl⟩
    · exact ⟨rfl, rfl, rfl⟩

theorem resolveSession_cache_after (st : WriterSt) (sid : String) :
    JsMap.mget (resolveSession st sid).2.sessionCache sid
      = some ((resolveSession st sid).1) := by
  unfold resolveSession
  split
  · next c hc => exact hc
  · split
    · exact JsMap.mget_mset_self _ _ _
    · exact JsMap.mget_mset_self _ _ _

theorem resolveSession_of_cached (st : WriterSt) (sid : String)
    (r : Option SessionInfo) (h : JsMap.mget st.sessionCache sid = some r) :
    resolveSession st sid = (r, st) := by
  unfold resolveSession
  rw [h]

theorem resolveLead_congr (st st' : WriterSt) (t : Int) (j : String)
    (h : st.leads = st'.leads) : resolveLead st t j = resolveLead st' t j := by
  unfold resolveLead
  rw [h]

/-- The `et_messages` row built by `storeInboundMessage` for a message
with (truthy) id `mid` inside session `info`, lead `leadId`, at `now`. -/
def inboundMessageRow (now : Int) (info : SessionInfo) (leadId : Int)
    (mid : String) (msg : Msg) : MessageRow :=
  { tenantId := info.tenantId
    leadId := leadId
    threadId := none
    channelSessionId := some info.channelSessionId
    channel := "whatsapp"
    externalMessageId := mid
    direction := "inbound"
    messageType := resolveMessageType msg
    textContent := resolveTextContent msg
    mediaUrl := none
    rawPayload := msg
    deliveryStatus := "received"
    createdAt := now
    updatedAt := now }

theorem storeInboundMessage_unfold (now : Int) (st : WriterSt)
    (sessionId : String) (msg : Msg) (mid rjid : String)
    (info : SessionInfo) (leadId : Int)
    (hid : msg.key.id = some mid) (hmid : mid ≠ "")
    (hrj : msg.key.remoteJid = some rjid) (hrjne : rjid ≠ "")
    (hsess : (resolveSession st sessionId).1 = some info)
    (hlead : resolveLead (resolveSession st sessionId).2 info.tenantId
        ((jsFirstTruthyStr [msg.key.participant]).getD rjid) = some leadId) :
    storeInboundMessage true now st sessionId msg
      = { (resolveSession st sessionId).2 with
          messages := upsertEtMessage (resolveSession st sessionId).2.messages
            (inboundMessageRow now info leadId mid msg) } := by
  unfold storeInboundMessage
  rw [if_neg (by simp)]
  rw [hid, hrj, jsTruthyStr_of_ne mid hmid, jsTruthyStr_of_ne rjid hrjne]
  simp only [hsess, hlead, inboundMessageRow]

theorem sameMsgKey_iff_pred (x : MessageRow) (now : Int) (info : SessionInfo)
    (leadId : Int) (mid : String) (msg : Msg) :
    sameMsgKey x (inboundMessageRow now info leadId mid msg)
      ↔ msgKeyPred info.tenantId mid x = true := by
  unfold sameMsgKey inboundMessageRow msgKeyPred
  simp

/-- C7: writing the same external message id twice through
`storeInboundMessage` (same session and counterpart) leaves exactly one
row carrying the uniqueness key `(tenant, 'whatsapp', id)` in
`et_messages` — the second write hits the `ON CONFLICT` clause and
updates in place, never appending a second row. -/
theorem storeInboundMessage_idempotent_in_external_id
    (st : WriterSt) (now1 now2 : Int) (sessionId : String) (msg : Msg)
    (mid rjid : String) (info : SessionInfo) (leadId : Int)
    (hid : msg.key.id = some mid) (hmid : mid ≠ "")
    (hrj : msg.key.remoteJid = some rjid) (hrjne : rjid ≠ "")
    (hsess : (resolveSession st sessionId).1 = some info)
    (hlead : resolveLead (resolveSession st sessionId).2 info.tenantId
        ((jsFirstTruthyStr [msg.key.participant]).getD rjid) = some leadId)
    (hfresh : whatsappRowCount st.messages info.tenantId mid = 0) :
    whatsappRowCount
        (storeInboundMessage true now1 st sessionId msg).messages info.tenantId mid = 1
    ∧ whatsappRowCount
        (storeInboundMessage true now2
          (storeInboundMessage true now1 st sessionId msg) sessionId msg).messages
        info.tenantId mid = 1
    ∧ (storeInboundMessage true now2
          (storeInboundMessage true now1 st sessionId msg) sessionId msg).messages.length
        = (storeInboundMessage true now1 st sessionId msg).messages.length := by
  have h1 := storeInboundMessage_unfold now1 st sessionId msg mid rjid info leadId
    hid hmid hrj hrjne hsess hlead
  have hmsgs : (resolveSession st sessionId).2.messages = st.messages :=
    (resolveSession_fields st sessionId).1
  have hfresh2 : ∀ x ∈ (resolveSession st sessionId).2.messages,
      ¬ msgKeyPred info.tenantId mid x = true := by
    rw [hmsgs]
    intro x hx
    have hnil : st.messages.filter (msgKeyPred info.tenantId mid) = [] :=
      List.length_eq_zero.mp hfresh
    exact List.filter_eq_nil_iff.mp hnil x hx
  have hany1 : ¬ ((resolveSession st sessionId).2.messages.any
      (fun x => decide (sameMsgKey x (inboundMessageRow now1 info leadId mid msg))) = true) := by
    intro hc
    rcases List.any_eq_true.mp hc with ⟨x, hx, hpx⟩
    exact hfresh2 x hx ((sameMsgKey_iff_pred x now1 info leadId mid msg).mp (of_decide_eq_true hpx))
  have happ : (storeInboundMessage true now1 st sessionId msg).messages
      = (resolveSession st sessionId).2.messages ++ [inboundMessageRow now1 info leadId mid msg] := by
    rw [h1]
    exact upsertEtMessage_fresh _ _ hany1
  have hpredrow : msgKeyPred info.tenantId mid (inboundMessageRow now1 info leadId mid msg) = true := by
    unfold msgKeyPred inboundMessageRow
    simp
  have hcount1 : whatsappRowCount
      (storeInboundMessage true now1 st sessionId msg).messages info.tenantId mid = 1 := by
    rw [happ, whatsappRowCount_append]
    rw [if_pos hpredrow]
    unfold whatsappRowCount at hfresh ⊢
    rw [hmsgs, hfresh]
  -- second write: the session resolves from the writer's cache
  have hcache1 : JsMap.mget
      (storeInboundMessage true now1 st sessionId msg).sessionCache sessionId
      = some (some info) := by
    rw [h1]
    show JsMap.mget (resolveSession st sessionId).2.sessionCache sessionId = some (some info)
    rw [resolveSession_cache_after st sessionId, hsess]
  have hres2 : resolveSession (storeInboundMessage true now1 st sessionId msg) sessionId
      = (some info, storeInboundMessage true now1 st sessionId msg) :=
    resolveSession_of_cached _ _ _ hcache1
  have hleads1 : (storeInboundMessage true now1 st sessionId msg).leads
      = (resolveSession st sessionId).2.leads := by
    rw [h1]
  have hlead2 : resolveLead
      (resolveSession (storeInboundMessage true now1 st sessionId msg) sessionId).2
      info.tenantId ((jsFirstTruthyStr [msg.key.participant]).getD rjid) = some leadId := by
    rw [hres2]
    rw [resolveLead_congr _ (resolveSession st sessionId).2 _ _ hleads1]
    exact hlead
  have h2 := storeInboundMessage_unfold now2
    (storeInboundMessage true now1 st sessionId msg) sessionId msg mid rjid info leadId
    hid hmid hrj hrjne (by rw [hres2]) hlead2
  rw [hres2] at h2
  have hrow1mem : inboundMessageRow now1 info leadId mid msg
      ∈ (storeInboundMessage true now1 st sessionId msg).messages := by
    rw [happ]
    exact List.mem_append_right _ (List.mem_singleton.mpr rfl)
  have hany2 : (storeInboundMessage true now1 st sessionId msg).messages.any
      (fun x => decide (sameMsgKey x (inboundMessageRow now2 info leadId mid msg))) = true := by
    refine List.any_eq_true.mpr ⟨inboundMessageRow now1 info leadId mid msg, hrow1mem, ?_⟩
    exact decide_eq_true
      ((sameMsgKey_iff_pred _ now2 info leadId mid msg).mpr hpredrow)
  refine ⟨hcount1, ?_, ?_⟩
  · rw [h2]
    show whatsappRowCount (upsertEtMessage
        (storeInboundMessage true now1 st sessionId msg).messages
        (inboundMessageRow now2 info leadId mid msg)) info.tenantId mid = 1
    rw [whatsappRowCount_upsert_conflict _ _ _ _ hany2]
    exact hcount1
  · rw [h2]
    show (upsertEtMessage
        (storeInboundMessage true now1 st sessionId msg).messages
        (inboundMessageRow now2 info leadId mid msg)).length
      = (storeInboundMessage true now1 st sessionId msg).messages.length
    exact length_upsert_conflict _ _ hany2

unseal List.merge List.mergeSort in
/-- Witness for C7: a one-session, one-lead store receiving the same
message (id `"MSG1"`) twice holds exactly one row for it. -/
theorem storeInboundMessage_idempotent_in_external_id_witness :
    whatsappRowCount
      (storeInboundMessage true 2000
        (storeInboundMessage true 1000
          { channelSessions := [⟨7, 101, "whatsapp", "acct-1"⟩]
            leads := [⟨5001, 101, "+15551234567"⟩]
            messages := []
            sessionCache := [] }
          "acct-1" { key := { id := some "MSG1", remoteJid := some "15551234567@s.whatsapp.net" } })
        "acct-1" { key := { id := some "MSG1", remoteJid := some "15551234567@s.whatsapp.net" } }).messages
      101 "MSG1" = 1 := by
  have h := storeInboundMessage_idempotent_in_external_id
    { channelSessions := [⟨7, 101, "whatsapp", "acct-1"⟩]
      leads := [⟨5001, 101, "+15551234567"⟩]
      messages := []
      sessionCache := [] }
    1000 2000 "acct-1"
    { key := { id := some "MSG1", remoteJid := some "15551234567@s.whatsapp.net" } }
    "MSG1" "15551234567@s.whatsapp.net" ⟨7, 101⟩ 5001
    rfl (by decide) rfl (by decide)
    (by decide) (by decide) rfl
  exact h.2.1

theorem jsFirstTruthyStr_single (s : String) (h : s ≠ "") :
    jsFirstTruthyStr [some s] = some s := by
  simp [jsFirstTruthyStr, strTruthy, List.find?, h]

theorem jsTruthyStr_some_of_ne (s : String) (h : s ≠ "") :
    jsTruthyStr (some s) = some s := jsTruthyStr_of_ne s h

/-- First message of the C1 counterexample: primary identity in LID form,
phone-number form supplied as the alternate. -/
def msgLidPrimary : Msg :=
  { key := { id := some "A1", remoteJid := some "987654321@lid",
             remoteJidAlt := some "15551234567@s.whatsapp.net" }
    messageTimestamp := JsTs.num 1 }

/-- Second message of the C1 counterexample: primary identity already in
phone-number form, no alternate. -/
def msgPnPrimary : Msg :=
  { key := { id := some "A2", remoteJid := some "15551234567@s.whatsapp.net" }
    messageTimestamp := JsTs.num 2 }

/-- C1 counterexample: the two events resolve to the same `senderJid`
(ConversationKey) `15551234567@s.whatsapp.net`, but after `cacheMessages`
processes both, no chat key holds both messages — the conjunction claimed
by C1 ("same ConversationKey **and** same cached chat / message
collection") is false, because `cacheMessages` keys by the raw primary
`remoteJid`. -/
theorem conversation_key_cache_split_cex :
    senderJid msgLidPrimary.key = senderJid msgPnPrimary.key
    ∧ senderJid msgLidPrimary.key = some "15551234567@s.whatsapp.net"
    ∧ ¬ (∃ k : String,
        msgLidPrimary ∈ JsMap.vals
          ((JsMap.mget (cacheMessages 500 (fun _ => "") {}
            [msgLidPrimary, msgPnPrimary]).messagesByChat k).getD [])
        ∧ msgPnPrimary ∈ JsMap.vals
          ((JsMap.mget (cacheMessages 500 (fun _ => "") {}
            [msgLidPrimary, msgPnPrimary]).messagesByChat k).getD [])) := by
  have hst : (cacheMessages 500 (fun _ => "") {}
      [msgLidPrimary, msgPnPrimary]).messagesByChat
      = [("987654321@lid", [("A1", msgLidPrimary)]),
         ("15551234567@s.whatsapp.net", [("A2", msgPnPrimary)])] := by decide
  refine ⟨by decide, by decide, ?_⟩
  rintro ⟨k, ha, hb⟩
  rw [hst] at ha hb
  by_cases h1 : ("987654321@lid" : String) = k
  · subst h1
    simp only [JsMap.mget, if_pos rfl, Option.getD_some, JsMap.vals,
      List.map_cons, List.map_nil, List.mem_singleton] at hb
    exact absurd hb (by decide)
  · by_cases h2 : ("15551234567@s.whatsapp.net" : String) = k
    · subst h2
      simp only [JsMap.mget, if_neg h1, if_pos rfl, Option.getD_some, JsMap.vals,
        List.map_cons, List.map_nil, List.mem_singleton] at ha
      exact absurd ha (by decide)
    · simp only [JsMap.mget, if_neg h1, if_neg h2, Option.getD_none] at ha
      exact absurd ha (by simp [JsMap.vals])

/-- C1 (amended): for a counterpart with phone-number form `P` and LID
form `L`, a message event with primary `L` / alternate `P` and one with
primary `P` resolve to the same ConversationKey `P` (used for
store-writes and webhooks); but `cacheMessages` keys each message by its
raw primary `remoteJid`, so the first is cached under chat key `L` and
the second under the distinct chat key `P` — the cache splits, it does
not collapse the two identity forms. -/
theorem conversation_key_same_but_cache_splits
    (cap : Nat) (hcap : 1 ≤ cap) (rnd : Nat → String)
    (m1 m2 : Msg) (L P i1 i2 : String)
    (hL : m1.key.remoteJid = some L) (hLne : L ≠ "")
    (hLlid : jsEndsWith L "@lid" = true)
    (hAlt : m1.key.remoteJidAlt = some P) (hPne : P ≠ "")
    (hP : m2.key.remoteJid = some P)
    (hPnotlid : jsEndsWith P "@lid" = false)
    (hLP : L ≠ P)
    (hi1 : m1.key.id = some i1) (hi1ne : i1 ≠ "")
    (hi2 : m2.key.id = some i2) (hi2ne : i2 ≠ "") :
    senderJid m1.key = some P
    ∧ senderJid m2.key = some P
    ∧ JsMap.mget (cacheMessages cap rnd {} [m1, m2]).messagesByChat L
        = some [(i1, m1)]
    ∧ JsMap.mget (cacheMessages cap rnd {} [m1, m2]).messagesByChat P
        = some [(i2, m2)] := by
  have hs1 : senderJid m1.key = some P := by
    unfold senderJid
    rw [hL]
    simp only [hLlid, if_true, hAlt, strTruthy]
    rw [if_pos (by simp [hPne])]
  have hs2 : senderJid m2.key = some P := by
    unfold senderJid
    rw [hP]
    simp only [hPnotlid, Bool.false_eq_true, if_false]
  have hone : cacheOne cap rnd (([] : JsMap (JsMap Msg)), 0) m1
      = ([(L, [(i1, m1)])], 0) := by
    unfold cacheOne
    rw [hL, jsTruthyStr_some_of_ne L hLne]
    simp only [hi1, jsFirstTruthyStr_single i1 hi1ne]
    have hno : ¬ ([(i1, m1)] : JsMap Msg).length > cap := by
      simp only [List.length_cons, List.length_nil]
      omega
    simp only [JsMap.mget, Option.getD_none, JsMap.mset, hno, if_false]
  have htwo : cacheOne cap rnd ([(L, [(i1, m1)])], 0) m2
      = ([(L, [(i1, m1)]), (P, [(i2, m2)])], 0) := by
    unfold cacheOne
    rw [hP, jsTruthyStr_some_of_ne P hPne]
    simp only [hi2, jsFirstTruthyStr_single i2 hi2ne]
    have hgetP : JsMap.mget ([(L, [(i1, m1)])] : JsMap (JsMap Msg)) P = none := by
      simp [JsMap.mget, hLP]
    rw [hgetP]
    have hno : ¬ ([(i2, m2)] : JsMap Msg).length > cap := by
      simp only [List.length_cons, List.length_nil]
      omega
    simp only [Option.getD_none, JsMap.mset, hno, if_false]
    simp [JsMap.mset, hLP]
  have hfold : (cacheMessages cap rnd {} [m1, m2]).messagesByChat
      = [(L, [(i1, m1)]), (P, [(i2, m2)])] := by
    unfold cacheMessages
    simp only [List.foldl_cons, List.foldl_nil]
    rw [show (({} : InstanceSt).messagesByChat, ({} : InstanceSt).rndCtr)
        = (([] : JsMap (JsMap Msg)), 0) from rfl, hone, htwo]
  refine ⟨hs1, hs2, ?_, ?_⟩
  · rw [hfold]
    simp [JsMap.mget]
  · rw [hfold]
    simp [JsMap.mget, hLP]

/-- Witness for C1 (amended) at the concrete counterpart of the
counterexample. -/
theorem conversation_key_same_but_cache_splits_witness :
    senderJid msgLidPrimary.key = some "15551234567@s.whatsapp.net"
    ∧ senderJid msgPnPrimary.key = some "15551234567@s.whatsapp.net"
    ∧ JsMap.mget (cacheMessages 500 (fun _ => "") {}
        [msgLidPrimary, msgPnPrimary]).messagesByChat "987654321@lid"
        = some [("A1", msgLidPrimary)]
    ∧ JsMap.mget (cacheMessages 500 (fun _ => "") {}
        [msgLidPrimary, msgPnPrimary]).messagesByChat "15551234567@s.whatsapp.net"
        = some [("A2", msgPnPrimary)] :=
  conversation_key_same_but_cache_splits 500 (by norm_num) (fun _ => "")
    msgLidPrimary msgPnPrimary
    "987654321@lid" "15551234567@s.whatsapp.net" "A1" "A2"
    rfl (by decide) (by decide) rfl (by decide) rfl (by decide) (by decide)
    rfl (by decide) rfl (by decide)

/-- Modelled from the spec (§4.6 read contract), for the refinement claim
C5: "messages sorted ascending by timestamp, optionally filtered to
strictly-before a cutoff, then truncated to the most recent `limit`
entries of that filtered set (take the tail)". -/
def specListMessages (msgs : List Msg) (limit : Nat) (beforeTimestamp : Option Int) :
    List Msg :=
  let sorted := msgs.mergeSort
    (fun a b => decide (messageTimestampMs a ≤ messageTimestampMs b))
  let filtered :=
    match beforeTimestamp with
    | some b => sorted.filter (fun m => messageTimestampMs m < b)
    | none => sorted
  filtered.drop (filtered.length - limit)

theorem tail_trunc {α : Type} (l : List α) (limit : Nat) :
    (if l.length > limit then l.drop (l.length - limit) else l)
      = l.drop (l.length - limit) := by
  by_cases h : l.length > limit
  · rw [if_pos h]
  · rw [if_neg h]
    have hz : l.length - limit = 0 := Nat.sub_eq_zero_of_le (Nat.le_of_not_lt h)
    rw [hz, List.drop_zero]

/-- A cached message with a given id, chat and second-resolution
timestamp. -/
def msgAtSec (i jid : String) (n : Int) : Msg :=
  { key := { id := some i, remoteJid := some jid }
    messageTimestamp := JsTs.num n }

unseal List.merge List.mergeSort in
/-- C5 counterexample: with a cutoff of `0` (a given cutoff!), the code's
truthiness guard `if (beforeTimestamp && …)` skips filtering entirely, so
`getChatMessages` returns a message whose timestamp (1000 ms) is *not*
strictly before the cutoff, while the claimed behaviour (filter
strictly-before, then tail) would return nothing. -/
theorem listMessages_zero_cutoff_cex :
    getChatMessages { messagesByChat := [("c", [("M1", msgAtSec "M1" "c" 1)])] }
        "c" 50 (some 0)
      ≠ (specListMessages
          (JsMap.vals ((JsMap.mget
            ({ messagesByChat := [("c", [("M1", msgAtSec "M1" "c" 1)])] }
              : InstanceSt).messagesByChat "c").getD []))
          50 (some 0)).map formatCached
    ∧ (getChatMessages { messagesByChat := [("c", [("M1", msgAtSec "M1" "c" 1)])] }
        "c" 50 (some 0)).map (fun f => f.timestamp) = [1000]
    ∧ specListMessages
        (JsMap.vals ((JsMap.mget
          ({ messagesByChat := [("c", [("M1", msgAtSec "M1" "c" 1)])] }
            : InstanceSt).messagesByChat "c").getD []))
        50 (some 0) = [] := by
  refine ⟨?_, by decide, by decide⟩
  decide

/-- C5 (amended): for every chat key, limit, and cutoff that is either
absent or a **nonzero** value, `getChatMessages` returns exactly the
spec's read contract: the chat's cached messages sorted ascending by
timestamp, filtered to strictly-before the cutoff when one is given,
truncated to the most recent `limit` entries with chronological order
preserved.  (A cutoff of `0` — and, in JS, `NaN`/`±∞` — is treated as
absent by the code's truthiness/finiteness guard; `Number.isFinite` is
identically true over the integer model.) -/
theorem getChatMessages_refines_spec (st : InstanceSt) (jid : String)
    (limit : Nat) (b : Option Int)
    (hb : b = none ∨ ∃ c, b = some c ∧ c ≠ 0) :
    getChatMessages st jid limit b
      = (specListMessages
          (JsMap.vals ((JsMap.mget st.messagesByChat jid).getD []))
          limit b).map formatCached := by
  unfold getChatMessages specListMessages
  cases hm : JsMap.mget st.messagesByChat jid with
  | none =>
    rcases hb with hb | ⟨c, hb, hc⟩ <;> subst hb <;>
      simp [JsMap.vals, List.mergeSort_nil]
  | some map =>
    rcases hb with hb | ⟨c, hb, hc⟩
    · subst hb
      simp only [Option.getD_some]
      rw [tail_trunc]
    · subst hb
      simp only [Option.getD_some]
      rw [if_pos hc, tail_trunc]

unseal List.merge List.mergeSort in
/-- Witness for C5 (amended), at the spec's own scenario: a chat holding
messages at timestamps [1000, 2000, 6000, 7000] ms, `limit = 2`,
`beforeTimestamp = 5000` returns the two messages at 1000 and 2000 in
ascending order. -/
theorem getChatMessages_refines_spec_witness :
    (getChatMessages
        { messagesByChat := [("c",
            [("M1", msgAtSec "M1" "c" 1), ("M2", msgAtSec "M2" "c" 2),
             ("M3", msgAtSec "M3" "c" 6), ("M4", msgAtSec "M4" "c" 7)])] }
        "c" 2 (some 5000)).map (fun f => (f.id, f.timestamp))
      = [(some "M1", 1000), (some "M2", 2000)] := by
  rw [getChatMessages_refines_spec
    { messagesByChat := [("c",
        [("M1", msgAtSec "M1" "c" 1), ("M2", msgAtSec "M2" "c" 2),
         ("M3", msgAtSec "M3" "c" 6), ("M4", msgAtSec "M4" "c" 7)])] }
    "c" 2 (some 5000) (Or.inr ⟨5000, rfl, by norm_num⟩)]
  decide

/-! ## C4: bounded per-chat cache, oldest-by-timestamp eviction -/

/-- The id under which `cacheMessages` stores a message that carries a
truthy `key.id`. -/
def idOf (m : Msg) : String := (m.key.id).getD ""

/-- Number of messages in `S` strictly newer (by `messageTimestampMs`)
than `x` — "x is among the `cap` most recent of `S`" is
`cntNewer S x < cap`. -/
def cntNewer (S : List Msg) (x : Msg) : Nat :=
  S.countP (fun y => decide (messageTimestampMs x < messageTimestampMs y))

theorem countP_cons_pos {α : Type} (p : α → Bool) (a : α) (l : List α)
    (h : p a = true) : List.countP p (a :: l) = List.countP p l + 1 := by
  rw [List.countP_cons, h]
  simp

theorem countP_cons_neg {α : Type} (p : α → Bool) (a : α) (l : List α)
    (h : p a = false) : List.countP p (a :: l) = List.countP p l := by
  rw [List.countP_cons, h]
  simp

theorem filter_cons_pos {α : Type} (p : α → Bool) (a : α) (l : List α)
    (h : p a = true) : List.filter p (a :: l) = a :: List.filter p l := by
  rw [List.filter_cons, h]
  simp

theorem filter_cons_neg {α : Type} (p : α → Bool) (a : α) (l : List α)
    (h : p a = false) : List.filter p (a :: l) = List.filter p l := by
  rw [List.filter_cons, h]
  simp

theorem cntNewer_append_single (S : List Msg) (m x : Msg) :
    cntNewer (S ++ [m]) x
      = cntNewer S x
        + (if messageTimestampMs x < messageTimestampMs m then 1 else 0) := by
  unfold cntNewer
  rw [List.countP_append]
  by_cases h : messageTimestampMs x < messageTimestampMs m <;>
    simp [List.countP_cons, h]

theorem cntNewer_lt_of_mem (S : List Msg) (x : Msg) (hx : x ∈ S) :
    cntNewer S x < S.length := by
  induction S with
  | nil => cases hx
  | cons a t ih =>
    unfold cntNewer at ih ⊢
    by_cases hax : x = a
    · subst hax
      rw [countP_cons_neg (fun y => decide (messageTimestampMs x < messageTimestampMs y)) x t (by simp)]
      have hle : t.countP (fun y => decide (messageTimestampMs x < messageTimestampMs y))
          ≤ t.length := List.countP_le_length _
      simp only [List.length_cons]
      omega
    · have hxt : x ∈ t := by
        rcases List.mem_cons.mp hx with h1 | h2
        · exact absurd h1 hax
        · exact h2
      have hrec := ih hxt
      by_cases hpa : (decide (messageTimestampMs x < messageTimestampMs a)) = true
      · rw [countP_cons_pos (fun y => decide (messageTimestampMs x < messageTimestampMs y)) a t hpa]
        simp only [List.length_cons]
        omega
      · rw [countP_cons_neg (fun y => decide (messageTimestampMs x < messageTimestampMs y)) a t (Bool.not_eq_true _ ▸ hpa)]
        simp only [List.length_cons]
        omega

theorem cntNewer_mono (S : List Msg) (v m : Msg)
    (h : messageTimestampMs v ≤ messageTimestampMs m) :
    cntNewer S m ≤ cntNewer S v := by
  unfold cntNewer
  refine List.countP_mono_left ?_
  intro z _ hz
  have h1 : messageTimestampMs m < messageTimestampMs z := of_decide_eq_true hz
  exact decide_eq_true (lt_of_le_of_lt h h1)

theorem cntNewer_strict_mono (S : List Msg) (v x : Msg) (hx : x ∈ S)
    (hvx : messageTimestampMs v < messageTimestampMs x) :
    cntNewer S x < cntNewer S v := by
  induction S with
  | nil => cases hx
  | cons a t ih =>
    unfold cntNewer at ih ⊢
    have hmono : t.countP (fun y => decide (messageTimestampMs x < messageTimestampMs y))
        ≤ t.countP (fun y => decide (messageTimestampMs v < messageTimestampMs y)) := by
      refine List.countP_mono_left ?_
      intro z _ hz
      exact decide_eq_true (lt_trans hvx (of_decide_eq_true hz))
    by_cases hax : x = a
    · subst hax
      rw [countP_cons_neg (fun y => decide (messageTimestampMs x < messageTimestampMs y)) x t (by simp),
        countP_cons_pos (fun y => decide (messageTimestampMs v < messageTimestampMs y)) x t (decide_eq_true hvx)]
      omega
    · have hxt : x ∈ t := by
        rcases List.mem_cons.mp hx with h1 | h2
        · exact absurd h1 hax
        · exact h2
      have hrec := ih hxt
      by_cases hpa : (decide (messageTimestampMs x < messageTimestampMs a)) = true
      · have hpv : (decide (messageTimestampMs v < messageTimestampMs a)) = true :=
          decide_eq_true (lt_trans hvx (of_decide_eq_true hpa))
        rw [countP_cons_pos (fun y => decide (messageTimestampMs x < messageTimestampMs y)) a t hpa, countP_cons_pos (fun y => decide (messageTimestampMs v < messageTimestampMs y)) a t hpv]
        omega
      · rw [countP_cons_neg (fun y => decide (messageTimestampMs x < messageTimestampMs y)) a t (Bool.not_eq_true _ ▸ hpa)]
        by_cases hpv : (decide (messageTimestampMs v < messageTimestampMs a)) = true
        · rw [countP_cons_pos (fun y => decide (messageTimestampMs v < messageTimestampMs y)) a t hpv]
          omega
        · rw [countP_cons_neg (fun y => decide (messageTimestampMs v < messageTimestampMs y)) a t (Bool.not_eq_true _ ▸ hpv)]
          omega

/-- A `Nodup` list of elements of `T` all satisfying `p` is no longer
than `T.filter p`. -/
theorem nodup_subset_filter_length (T l : List Msg) (p : Msg → Bool)
    (hnd : l.Nodup) (hsub : ∀ y ∈ l, y ∈ T ∧ p y = true) :
    l.length ≤ (T.filter p).length :=
  List.Subperm.length_le
    (List.subperm_of_subset hnd
      (fun y hy => List.mem_filter.mpr ⟨(hsub y hy).1, (hsub y hy).2⟩))

theorem filter_ne_length {α : Type} [DecidableEq α] (l : List α) (a : α)
    (hnd : l.Nodup) (ha : a ∈ l) :
    (l.filter (fun y => decide ¬(y = a))).length = l.length - 1 := by
  induction l with
  | nil => cases ha
  | cons b t ih =>
    rcases List.nodup_cons.mp hnd with ⟨hbt, hndt⟩
    by_cases hba : b = a
    · subst hba
      have hall : t.filter (fun y => decide ¬(y = b)) = t := by
        refine List.filter_eq_self.mpr ?_
        intro y hy
        refine decide_eq_true ?_
        intro hc
        exact hbt (hc ▸ hy)
      rw [filter_cons_neg (fun y => decide ¬(y = b)) b t (by simp), hall]
      simp
    · have hat : a ∈ t := by
        rcases List.mem_cons.mp ha with h1 | h2
        · exact absurd h1.symm hba
        · exact h2
      have hpos : 0 < t.length := by
        cases t with
        | nil => cases hat
        | cons c u => simp
      have hpb : (fun y => decide ¬(y = a)) b = true := by
        simp only [decide_eq_true_eq]
        exact hba
      rw [filter_cons_pos (fun y => decide ¬(y = a)) b t hpb, List.length_cons,
        ih hndt hat, List.length_cons]
      omega

namespace JsMap

theorem mset_of_not_mem {α : Type} (m : JsMap α) (k : String) (v : α)
    (h : k ∉ keys m) : mset m k v = m ++ [(k, v)] := by
  induction m with
  | nil => rfl
  | cons p t ih =>
    have hp : ¬ p.1 = k := fun hh => h (by simp [keys, hh])
    have ht : k ∉ keys t := fun hh => h (List.mem_cons_of_mem _ hh)
    rw [mset, if_neg hp, ih ht]
    rfl

theorem mem_keys_mdelete {α : Type} (m : JsMap α) (k k' : String)
    (h1 : k' ∈ keys m) (h2 : k' ≠ k) : k' ∈ keys (mdelete m k) := by
  induction m with
  | nil => cases h1
  | cons p t ih =>
    by_cases hp : p.1 = k
    · rw [mdelete, if_pos hp]
      rcases List.mem_cons.mp h1 with he | ht
      · exact absurd (he.trans hp) h2
      · exact ih ht
    · rw [mdelete, if_neg hp]
      rcases List.mem_cons.mp h1 with he | ht
      · exact he ▸ List.mem_cons_self _ _
      · exact List.mem_cons_of_mem _ (ih ht)

theorem foldl_mdelete_keysNodup {α : Type} (es : List (String × α)) (m : JsMap α)
    (h : KeysNodup m) :
    KeysNodup (es.foldl (fun acc e => mdelete acc e.1) m) := by
  induction es generalizing m with
  | nil => exact h
  | cons e rest ih => exact ih _ (keysNodup_mdelete m e.1 h)

theorem foldl_mdelete_length {α : Type} (es : List (String × α)) (m : JsMap α)
    (hnd : KeysNodup m) (hks : (es.map Prod.fst).Nodup)
    (hin : ∀ e ∈ es, e.1 ∈ keys m) :
    (es.foldl (fun acc e => mdelete acc e.1) m).length = m.length - es.length := by
  induction es generalizing m with
  | nil => simp
  | cons e rest ih =>
    have hmem : e.1 ∈ keys m := hin e (List.mem_cons_self _ _)
    have hlen1 : (mdelete m e.1).length = m.length - 1 :=
      length_mdelete_of_mem m e.1 hnd hmem
    have hnd1 : KeysNodup (mdelete m e.1) := keysNodup_mdelete m e.1 hnd
    have hks2 : e.1 ∉ (rest.map Prod.fst) ∧ (rest.map Prod.fst).Nodup :=
      List.nodup_cons.mp hks
    rcases hks2 with ⟨hek, hkrest⟩
    have hin1 : ∀ e' ∈ rest, e'.1 ∈ keys (mdelete m e.1) := by
      intro e' he'
      have h1 : e'.1 ∈ keys m := hin e' (List.mem_cons_of_mem _ he')
      have h2 : e'.1 ≠ e.1 := by
        intro hc
        exact hek (hc ▸ List.mem_map_of_mem Prod.fst he')
      exact mem_keys_mdelete m e.1 e'.1 h1 h2
    have hpos : 1 ≤ m.length := by
      cases m with
      | nil => cases hmem
      | cons a b => simp
    rw [List.foldl_cons, ih (mdelete m e.1) hnd1 hkrest hin1, hlen1]
    simp only [List.length_cons]
    omega

theorem mem_vals_iff (M : JsMap Msg) (hkid : ∀ p ∈ M, p.1 = idOf p.2) (x : Msg) :
    x ∈ vals M ↔ (idOf x, x) ∈ M := by
  constructor
  · intro hx
    rcases List.mem_map.mp hx with ⟨p, hp, hpx⟩
    have h1 := hkid p hp
    have h2 : p = (idOf x, x) := by
      rcases p with ⟨pk, pv⟩
      simp only [] at h1 hpx
      subst hpx
      rw [h1]
    exact h2 ▸ hp
  · intro h
    exact List.mem_map.mpr ⟨(idOf x, x), h, rfl⟩

theorem mem_vals_mdelete (M : JsMap Msg) (k : String) (x : Msg)
    (hkid : ∀ p ∈ M, p.1 = idOf p.2) :
    x ∈ vals (mdelete M k) ↔ (x ∈ vals M ∧ idOf x ≠ k) := by
  induction M with
  | nil => simp [mdelete, vals]
  | cons p t ih =>
    have hkidt : ∀ q ∈ t, q.1 = idOf q.2 := fun q hq => hkid q (List.mem_cons_of_mem _ hq)
    have hp1 : p.1 = idOf p.2 := hkid p (List.mem_cons_self _ _)
    by_cases hp : p.1 = k
    · rw [mdelete, if_pos hp]
      rw [ih hkidt]
      constructor
      · rintro ⟨h1, h2⟩
        exact ⟨List.mem_cons_of_mem _ h1, h2⟩
      · rintro ⟨h1, h2⟩
        rcases List.mem_cons.mp h1 with he | ht
        · exfalso
          apply h2
          rw [he, ← hp1]
          exact hp
        · exact ⟨ht, h2⟩
    · rw [mdelete, if_neg hp]
      show x ∈ p.2 :: vals (mdelete t k) ↔ _
      rw [List.mem_cons, ih hkidt]
      constructor
      · rintro (he | ⟨h1, h2⟩)
        · refine ⟨he ▸ List.mem_cons_self _ _, ?_⟩
          rw [he, ← hp1]
          exact hp
        · exact ⟨List.mem_cons_of_mem _ h1, h2⟩
      · rintro ⟨h1, h2⟩
        rcases List.mem_cons.mp h1 with he | ht
        · exact Or.inl he
        · exact Or.inr ⟨ht, h2⟩

theorem vals_append {α : Type} (a b : JsMap α) : vals (a ++ b) = vals a ++ vals b :=
  List.map_append _ _ _

end JsMap

/-- Comparator used by `cacheMessages`' eviction sort
(`(a, b) => ts(a[1]) - ts(b[1])`, i.e. ascending by timestamp). -/
def entryLe (a b : String × Msg) : Bool :=
  decide (messageTimestampMs a.2 ≤ messageTimestampMs b.2)

theorem mergeSort_head_min (l : List (String × Msg)) (hne : l ≠ []) :
    ∃ e es, l.mergeSort entryLe = e :: es ∧ e ∈ l
      ∧ ∀ p ∈ l, messageTimestampMs e.2 ≤ messageTimestampMs p.2 := by
  have hperm := List.mergeSort_perm l entryLe
  have hsorted : (l.mergeSort entryLe).Pairwise (fun a b => entryLe a b = true) := by
    refine List.sorted_mergeSort ?_ ?_ l
    · intro a b c hab hbc
      exact decide_eq_true (le_trans (of_decide_eq_true hab) (of_decide_eq_true hbc))
    · intro a b
      rcases le_total (messageTimestampMs a.2) (messageTimestampMs b.2) with h | h
      · simp [entryLe, h]
      · simp [entryLe, h]
  rcases hms : l.mergeSort entryLe with _ | ⟨e, es⟩
  · exfalso
    have := hperm.length_eq
    rw [hms] at this
    cases l with
    | nil => exact hne rfl
    | cons a t => simp at this
  · refine ⟨e, es, rfl, ?_, ?_⟩
    · have : e ∈ l.mergeSort entryLe := by rw [hms]; exact List.mem_cons_self _ _
      exact hperm.mem_iff.mp this
    · intro p hp
      have hpm : p ∈ l.mergeSort entryLe := hperm.mem_iff.mpr hp
      rw [hms] at hpm hsorted
      rcases List.mem_cons.mp hpm with he | ht
      · rw [he]
      · exact of_decide_eq_true (List.rel_of_pairwise_cons hsorted ht)

/-- The per-chat effect of one `cacheMessages` iteration, with the chosen
message id made explicit: insert, then — when over the cap — delete the
oldest `overflow` entries of the timestamp-sorted entry list. -/
def chatStep (cap : Nat) (existing : JsMap Msg) (i : String) (msg : Msg) :
    JsMap Msg :=
  let inserted := JsMap.mset existing i msg
  if inserted.length > cap then
    let sorted := inserted.mergeSort entryLe
    let overflow := inserted.length - cap
    (sorted.take overflow).foldl (fun m e => JsMap.mdelete m e.1) inserted
  else inserted

/-- `cacheOne` either skips the message (falsy `remoteJid`) or rewrites
exactly the chat keyed by the raw `remoteJid` through `chatStep`. -/
theorem cacheOne_cases (cap : Nat) (rnd : Nat → String)
    (acc : JsMap (JsMap Msg) × Nat) (msg : Msg) :
    cacheOne cap rnd acc msg = acc
    ∨ (∃ j mid ctr, jsTruthyStr msg.key.remoteJid = some j
        ∧ cacheOne cap rnd acc msg
            = (JsMap.mset acc.1 j
                (chatStep cap ((JsMap.mget acc.1 j).getD []) mid msg), ctr)) := by
  unfold cacheOne chatStep
  cases hj : jsTruthyStr msg.key.remoteJid with
  | none => exact Or.inl rfl
  | some j =>
    refine Or.inr ?_
    cases hi : jsFirstTruthyStr [msg.key.id] with
    | some i => exact ⟨j, i, acc.2, rfl, rfl⟩
    | none =>
      exact ⟨j, toString (messageTimestampMs msg) ++ "-" ++ rnd acc.2, acc.2 + 1,
        rfl, rfl⟩

/-- `cacheOne` for a message with a truthy `remoteJid` equal to `j` and a
truthy id: the chosen message id is `idOf msg`. -/
theorem cacheOne_eq (cap : Nat) (rnd : Nat → String)
    (acc : JsMap (JsMap Msg) × Nat) (msg : Msg) (j : String)
    (hj : msg.key.remoteJid = some j) (hjne : j ≠ "")
    (hidt : strTruthy msg.key.id = true) :
    cacheOne cap rnd acc msg
      = (JsMap.mset acc.1 j
          (chatStep cap ((JsMap.mget acc.1 j).getD []) (idOf msg) msg), acc.2) := by
  have hid : ∃ i, msg.key.id = some i ∧ i ≠ "" := by
    cases hmi : msg.key.id with
    | none => rw [hmi] at hidt; exact absurd hidt (by simp [strTruthy])
    | some i =>
      refine ⟨i, rfl, ?_⟩
      rw [hmi] at hidt
      simpa [strTruthy] using hidt
  rcases hid with ⟨i, hi, hine⟩
  have hfi : jsFirstTruthyStr [msg.key.id] = some i := by
    rw [hi]
    exact jsFirstTruthyStr_single i hine
  have hio : idOf msg = i := by unfold idOf; rw [hi]; rfl
  unfold cacheOne chatStep
  rw [hj, jsTruthyStr_some_of_ne j hjne, hfi, hio]
  rfl

/-- Per-chat well-formedness plus the size bound. -/
def BoundedStore (cap : Nat) (store : JsMap (JsMap Msg)) : Prop :=
  ∀ k, JsMap.KeysNodup ((JsMap.mget store k).getD [])
    ∧ ((JsMap.mget store k).getD []).length ≤ cap

theorem chatStep_bounded (cap : Nat) (ex : JsMap Msg) (i : String) (msg : Msg)
    (hnd : JsMap.KeysNodup ex) (hlen : ex.length ≤ cap) :
    JsMap.KeysNodup (chatStep cap ex i msg) ∧ (chatStep cap ex i msg).length ≤ cap := by
  have hndIns : JsMap.KeysNodup (JsMap.mset ex i msg) :=
    JsMap.keysNodup_mset ex i msg hnd
  have hperm := List.mergeSort_perm (JsMap.mset ex i msg) entryLe
  by_cases hover : (JsMap.mset ex i msg).length > cap
  · have hstep : chatStep cap ex i msg
        = (((JsMap.mset ex i msg).mergeSort entryLe).take
            ((JsMap.mset ex i msg).length - cap)).foldl
            (fun m e => JsMap.mdelete m e.1) (JsMap.mset ex i msg) := by
      simp only [chatStep]
      rw [if_pos hover]
    have hndK : JsMap.KeysNodup ((JsMap.mset ex i msg).mergeSort entryLe) := by
      unfold JsMap.KeysNodup JsMap.keys
      exact ((hperm.map Prod.fst).nodup_iff).mpr hndIns
    have hkeysnd : ((((JsMap.mset ex i msg).mergeSort entryLe).take
        ((JsMap.mset ex i msg).length - cap)).map Prod.fst).Nodup := by
      have h1 : (((JsMap.mset ex i msg).mergeSort entryLe).take
          ((JsMap.mset ex i msg).length - cap)).Sublist
          ((JsMap.mset ex i msg).mergeSort entryLe) :=
        List.take_sublist _ _
      exact List.Nodup.sublist (List.Sublist.map _ h1) hndK
    have hmem : ∀ e ∈ ((JsMap.mset ex i msg).mergeSort entryLe).take
        ((JsMap.mset ex i msg).length - cap), e.1 ∈ JsMap.keys (JsMap.mset ex i msg) := by
      intro e he
      have h1 : e ∈ (JsMap.mset ex i msg).mergeSort entryLe := List.mem_of_mem_take he
      have h2 : e ∈ JsMap.mset ex i msg := hperm.mem_iff.mp h1
      exact List.mem_map_of_mem Prod.fst h2
    have hlenfold := JsMap.foldl_mdelete_length
      (((JsMap.mset ex i msg).mergeSort entryLe).take
        ((JsMap.mset ex i msg).length - cap))
      (JsMap.mset ex i msg) hndIns hkeysnd hmem
    have htl : (((JsMap.mset ex i msg).mergeSort entryLe).take
        ((JsMap.mset ex i msg).length - cap)).length
        = (JsMap.mset ex i msg).length - cap := by
      rw [List.length_take]
      have h2 : ((JsMap.mset ex i msg).mergeSort entryLe).length
          = (JsMap.mset ex i msg).length := hperm.length_eq
      omega
    rw [hstep]
    constructor
    · exact JsMap.foldl_mdelete_keysNodup _ _ hndIns
    · rw [hlenfold, htl]
      omega
  · have hstep : chatStep cap ex i msg = JsMap.mset ex i msg := by
      simp only [chatStep]
      rw [if_neg hover]
    rw [hstep]
    exact ⟨hndIns, by omega⟩

theorem boundedStore_cacheOne (cap : Nat) (rnd : Nat → String)
    (acc : JsMap (JsMap Msg) × Nat) (msg : Msg)
    (h : BoundedStore cap acc.1) : BoundedStore cap (cacheOne cap rnd acc msg).1 := by
  rcases cacheOne_cases cap rnd acc msg with heq | ⟨j, mid, ctr, hj, heq⟩
  · rw [heq]; exact h
  · rw [heq]
    intro k
    by_cases hk : j = k
    · subst hk
      rw [JsMap.mget_mset_self]
      have hstep := chatStep_bounded cap ((JsMap.mget acc.1 j).getD []) mid msg
        (h j).1 (h j).2
      exact ⟨hstep.1, hstep.2⟩
    · rw [JsMap.mget_mset_ne _ _ _ _ hk]
      exact h k

theorem boundedStore_cacheMessages (cap : Nat) (rnd : Nat → String)
    (msgs : List Msg) (acc : JsMap (JsMap Msg) × Nat)
    (h : BoundedStore cap acc.1) :
    BoundedStore cap (msgs.foldl (cacheOne cap rnd) acc).1 := by
  induction msgs generalizing acc with
  | nil => exact h
  | cons m rest ih =>
    exact ih (cacheOne cap rnd acc m) (boundedStore_cacheOne cap rnd acc m h)

/-- One streaming-top-`cap` step: if `V` is exactly the set of messages
of `seen` with fewer than `cap` strictly-newer ones, `|V| = cap`, and `μ`
is the timestamp-minimum of `V ++ [m]`, then `V ++ [m]` minus `μ` is
exactly the set of messages of `seen ++ [m]` with fewer than `cap`
strictly-newer ones. -/
theorem topk_step (cap : Nat) (seen : List Msg) (m μ : Msg) (V : List Msg)
    (hts : ((seen ++ [m]).map messageTimestampMs).Nodup)
    (hchar : ∀ x, x ∈ V ↔ x ∈ seen ∧ cntNewer seen x < cap)
    (hVlen : V.length = cap)
    (hVnd : (V ++ [m]).Nodup)
    (hμmem : μ ∈ V ++ [m])
    (hμmin : ∀ y ∈ V ++ [m], messageTimestampMs μ ≤ messageTimestampMs y)
    (hm : m ∉ seen) :
    ∀ x, (x ∈ V ++ [m] ∧ x ≠ μ)
      ↔ (x ∈ seen ++ [m] ∧ cntNewer (seen ++ [m]) x < cap) := by
  have hVsub : ∀ x ∈ V, x ∈ seen := fun x hx => ((hchar x).mp hx).1
  have hV1sub : ∀ x ∈ V ++ [m], x ∈ seen ++ [m] := by
    intro x hx
    rcases List.mem_append.mp hx with h | h
    · exact List.mem_append_left _ (hVsub x h)
    · exact List.mem_append_right _ h
  have tsInj : ∀ x ∈ seen ++ [m], ∀ y ∈ seen ++ [m],
      messageTimestampMs x = messageTimestampMs y → x = y := by
    intro x hx y hy hxy
    exact List.inj_on_of_nodup_map hts hx hy hxy
  have hμstrict : ∀ y ∈ V ++ [m], y ≠ μ →
      messageTimestampMs μ < messageTimestampMs y := by
    intro y hy hne
    rcases lt_or_eq_of_le (hμmin y hy) with h | h
    · exact h
    · exact absurd (tsInj μ (hV1sub μ hμmem) y (hV1sub y hy) h).symm hne
  have hμcnt : cap ≤ cntNewer (seen ++ [m]) μ := by
    have hfilnd : ((V ++ [m]).filter (fun y => decide ¬(y = μ))).Nodup :=
      hVnd.filter _
    have hfillen : ((V ++ [m]).filter (fun y => decide ¬(y = μ))).length = cap := by
      rw [filter_ne_length (V ++ [m]) μ hVnd hμmem, List.length_append, hVlen]
      simp
    have hsub : ∀ y ∈ (V ++ [m]).filter (fun y => decide ¬(y = μ)),
        y ∈ (seen ++ [m])
          ∧ (fun y => decide (messageTimestampMs μ < messageTimestampMs y)) y = true := by
      intro y hy
      have h1 := List.mem_filter.mp hy
      have hne : ¬ (y = μ) := of_decide_eq_true h1.2
      exact ⟨hV1sub y h1.1, decide_eq_true (hμstrict y h1.1 hne)⟩
    have hle := nodup_subset_filter_length (seen ++ [m])
      ((V ++ [m]).filter (fun y => decide ¬(y = μ)))
      (fun y => decide (messageTimestampMs μ < messageTimestampMs y))
      hfilnd hsub
    rw [hfillen] at hle
    unfold cntNewer
    rw [List.countP_eq_length_filter]
    exact hle
  intro x
  constructor
  · rintro ⟨hxV1, hxne⟩
    refine ⟨hV1sub x hxV1, ?_⟩
    by_contra hge0
    push_neg at hge0
    apply hxne
    have hxmin : ∀ y ∈ V ++ [m], y ≠ x →
        messageTimestampMs x < messageTimestampMs y := by
      rcases List.mem_append.mp hxV1 with hxV | hxm
      · have hxs : x ∈ seen := hVsub x hxV
        have hcx : cntNewer seen x < cap := ((hchar x).mp hxV).2
        have hsplit := cntNewer_append_single seen m x
        have hxm2 : messageTimestampMs x < messageTimestampMs m
            ∧ cntNewer seen x = cap - 1 := by
          by_cases hlt : messageTimestampMs x < messageTimestampMs m
          · rw [if_pos hlt] at hsplit
            exact ⟨hlt, by omega⟩
          · rw [if_neg hlt] at hsplit
            exfalso
            omega
        intro y hy hyx
        rcases List.mem_append.mp hy with hyV | hym
        · by_contra hnot
          push_neg at hnot
          have hylt : messageTimestampMs y < messageTimestampMs x := by
            rcases lt_or_eq_of_le hnot with h | h
            · exact h
            · exact absurd (tsInj y (hV1sub y hy) x (hV1sub x hxV1) h) hyx
          have hstr := cntNewer_strict_mono seen y x hxs hylt
          have hyc : cntNewer seen y < cap := ((hchar y).mp hyV).2
          omega
        · rw [List.mem_singleton.mp hym]
          exact hxm2.1
      · have hxeq : x = m := List.mem_singleton.mp hxm
        subst hxeq
        have hcTm : cntNewer (seen ++ [x]) x = cntNewer seen x := by
          rw [cntNewer_append_single]
          simp
        rw [hcTm] at hge0
        intro y hy hym
        rcases List.mem_append.mp hy with hyV | hym2
        · by_contra hnot
          push_neg at hnot
          have hmono := cntNewer_mono seen y x hnot
          have hyc : cntNewer seen y < cap := ((hchar y).mp hyV).2
          omega
        · exact absurd (List.mem_singleton.mp hym2) hym
    by_cases hxμ : μ = x
    · exact hxμ.symm
    · exact absurd (lt_of_lt_of_le (hxmin μ hμmem hxμ) (hμmin x hxV1)) (lt_irrefl _)
  · rintro ⟨hxT, hcnt⟩
    have hxne : x ≠ μ := by
      intro hc
      rw [hc] at hcnt
      omega
    refine ⟨?_, hxne⟩
    rcases List.mem_append.mp hxT with hxs | hxm
    · have hsplit := cntNewer_append_single seen m x
      have h1 : cntNewer seen x < cap := by
        by_cases hlt : messageTimestampMs x < messageTimestampMs m
        · rw [if_pos hlt] at hsplit
          omega
        · rw [if_neg hlt] at hsplit
          omega
      exact List.mem_append_left _ ((hchar x).mpr ⟨hxs, h1⟩)
    · exact List.mem_append_right _ hxm

/-- Invariant tying a per-chat cache map `M` to the messages `seen` so
far: well-formed keys that are the message ids, size `min cap |seen|`,
and contents exactly the `cap` most recent messages of `seen`. -/
structure ChatInv (cap : Nat) (seen : List Msg) (M : JsMap Msg) : Prop where
  nodupKeys : JsMap.KeysNodup M
  keysAreIds : ∀ p ∈ M, p.1 = idOf p.2
  lengthEq : M.length = min cap seen.length
  charact : ∀ x : Msg, x ∈ JsMap.vals M ↔ x ∈ seen ∧ cntNewer seen x < cap

theorem chatInv_init (cap : Nat) : ChatInv cap [] [] := by
  refine ⟨?_, ?_, ?_, ?_⟩
  · simp [JsMap.KeysNodup, JsMap.keys]
  · intro p hp
    cases hp
  · simp
  · intro x
    simp [JsMap.vals]

theorem chatInv_step (cap : Nat) (seen : List Msg) (m : Msg) (M : JsMap Msg)
    (hts : ((seen ++ [m]).map messageTimestampMs).Nodup)
    (hids : ((seen ++ [m]).map idOf).Nodup)
    (hinv : ChatInv cap seen M) :
    ChatInv cap (seen ++ [m]) (chatStep cap M (idOf m) m) := by
  obtain ⟨hnd, hkid, hlen, hchar⟩ := hinv
  have idInj : ∀ x ∈ seen ++ [m], ∀ y ∈ seen ++ [m], idOf x = idOf y → x = y := by
    intro x hx y hy hxy
    exact List.inj_on_of_nodup_map hids hx hy hxy
  have hm : m ∉ seen := by
    intro hmem
    have h1 : messageTimestampMs m ∈ seen.map messageTimestampMs :=
      List.mem_map_of_mem _ hmem
    rw [List.map_append] at hts
    rcases List.nodup_append.mp hts with ⟨_, _, hdisj⟩
    exact hdisj h1 (by simp)
  have hVsub : ∀ x ∈ JsMap.vals M, x ∈ seen := fun x hx => ((hchar x).mp hx).1
  have hfresh : idOf m ∉ JsMap.keys M := by
    intro hk
    rcases List.mem_map.mp hk with ⟨p, hp, hpk⟩
    have h1 : p.1 = idOf p.2 := hkid p hp
    have h2 : p.2 ∈ seen := hVsub p.2 (List.mem_map_of_mem Prod.snd hp)
    have h3 : idOf p.2 = idOf m := by rw [← h1, hpk]
    have h4 : p.2 = m := idInj p.2 (List.mem_append_left _ h2) m (by simp) h3
    exact hm (h4 ▸ h2)
  have hins : JsMap.mset M (idOf m) m = M ++ [(idOf m, m)] :=
    JsMap.mset_of_not_mem M _ m hfresh
  have hvalsIns : JsMap.vals (JsMap.mset M (idOf m) m) = JsMap.vals M ++ [m] := by
    rw [hins, JsMap.vals_append]
    rfl
  have hlenIns : (JsMap.mset M (idOf m) m).length = M.length + 1 := by
    rw [hins]
    simp
  have hndIns : JsMap.KeysNodup (JsMap.mset M (idOf m) m) :=
    JsMap.keysNodup_mset _ _ _ hnd
  have hkidIns : ∀ p ∈ JsMap.mset M (idOf m) m, p.1 = idOf p.2 := by
    rw [hins]
    intro p hp
    rcases List.mem_append.mp hp with h | h
    · exact hkid p h
    · rw [List.mem_singleton.mp h]
  by_cases hover : (JsMap.mset M (idOf m) m).length > cap
  · have hMcap : M.length = cap := by
      have h1 : M.length ≤ cap := by
        rw [hlen]
        exact Nat.min_le_left _ _
      omega
    have hseenge : cap ≤ seen.length := by
      rw [hMcap] at hlen
      rcases Nat.le_total cap seen.length with h | h
      · exact h
      · rw [min_eq_right h] at hlen
        omega
    have hne : JsMap.mset M (idOf m) m ≠ [] := by
      intro hc
      rw [hc] at hlenIns
      simp at hlenIns
    obtain ⟨e, es, hsorted, heIns, hemin⟩ := mergeSort_head_min _ hne
    have hstep : chatStep cap M (idOf m) m
        = JsMap.mdelete (JsMap.mset M (idOf m) m) e.1 := by
      simp only [chatStep]
      rw [if_pos hover]
      have hof : (JsMap.mset M (idOf m) m).length - cap = 1 := by omega
      rw [hof, hsorted]
      rfl
    have hek : e.1 = idOf e.2 := hkidIns e heIns
    have heV1 : e.2 ∈ JsMap.vals M ++ [m] := by
      rw [← hvalsIns]
      exact List.mem_map_of_mem Prod.snd heIns
    have hminV1 : ∀ y ∈ JsMap.vals M ++ [m],
        messageTimestampMs e.2 ≤ messageTimestampMs y := by
      intro y hy
      rw [← hvalsIns] at hy
      rcases List.mem_map.mp hy with ⟨p, hp, hpy⟩
      rw [← hpy]
      exact hemin p hp
    have hVnodup : (JsMap.vals M).Nodup := by
      have hkeq : JsMap.keys M = (JsMap.vals M).map idOf := by
        unfold JsMap.keys JsMap.vals
        rw [List.map_map]
        exact List.map_congr_left hkid
      have h2 : ((JsMap.vals M).map idOf).Nodup := by
        rw [← hkeq]
        exact hnd
      exact h2.of_map
    have hmV : m ∉ JsMap.vals M := fun hc => hm (hVsub m hc)
    have hV1nd : (JsMap.vals M ++ [m]).Nodup := by
      rw [List.nodup_append]
      refine ⟨hVnodup, List.nodup_singleton _, ?_⟩
      intro a ha hb
      rw [List.mem_singleton.mp hb] at ha
      exact hmV ha
    have hVlen : (JsMap.vals M).length = cap := by
      unfold JsMap.vals
      rw [List.length_map]
      exact hMcap
    have htop := topk_step cap seen m e.2 (JsMap.vals M) hts hchar hVlen hV1nd
      heV1 hminV1 hm
    have hT : ∀ x ∈ JsMap.vals M ++ [m], x ∈ seen ++ [m] := by
      intro x hx
      rcases List.mem_append.mp hx with h | h
      · exact List.mem_append_left _ (hVsub x h)
      · exact List.mem_append_right _ h
    have hcharR : ∀ x, x ∈ JsMap.vals (chatStep cap M (idOf m) m)
        ↔ x ∈ seen ++ [m] ∧ cntNewer (seen ++ [m]) x < cap := by
      intro x
      rw [hstep, JsMap.mem_vals_mdelete _ _ _ hkidIns, hvalsIns, ← htop x]
      constructor
      · rintro ⟨h1, h2⟩
        refine ⟨h1, ?_⟩
        intro hc
        exact h2 (by rw [hc, ← hek])
      · rintro ⟨h1, h2⟩
        refine ⟨h1, ?_⟩
        intro hc
        apply h2
        refine idInj x (hT x h1) e.2 (hT e.2 heV1) ?_
        rw [hc, hek]
    refine ⟨?_, ?_, ?_, hcharR⟩
    · rw [hstep]
      exact JsMap.keysNodup_mdelete _ _ hndIns
    · rw [hstep]
      intro p hp
      exact hkidIns p ((JsMap.mdelete_sublist _ _).subset hp)
    · rw [hstep]
      have hkey : e.1 ∈ JsMap.keys (JsMap.mset M (idOf m) m) :=
        List.mem_map_of_mem Prod.fst heIns
      rw [JsMap.length_mdelete_of_mem _ _ hndIns hkey, hlenIns, hMcap,
        List.length_append]
      have hminc : min cap (seen.length + 1) = cap := min_eq_left (by omega)
      simp [hminc]
  · have hstep : chatStep cap M (idOf m) m = JsMap.mset M (idOf m) m := by
      simp only [chatStep]
      rw [if_neg hover]
    have hMlt : M.length + 1 ≤ cap := by omega
    have hseenlt : seen.length < cap := by
      rcases Nat.lt_or_ge seen.length cap with h | h
      · exact h
      · rw [hlen, min_eq_left h] at hMlt
        omega
    have hlenSeen : M.length = seen.length := by
      rw [hlen, min_eq_right (le_of_lt hseenlt)]
    refine ⟨?_, ?_, ?_, ?_⟩
    · rw [hstep]
      exact hndIns
    · rw [hstep]
      exact hkidIns
    · rw [hstep, hlenIns, hlenSeen, List.length_append]
      have hminc : min cap (seen.length + 1) = seen.length + 1 :=
        min_eq_right (by omega)
      simp [hminc]
    · intro x
      rw [hstep, hvalsIns]
      constructor
      · intro hx
        have hxT : x ∈ seen ++ [m] := by
          rcases List.mem_append.mp hx with h | h
          · exact List.mem_append_left _ (hVsub x h)
          · exact List.mem_append_right _ h
        refine ⟨hxT, ?_⟩
        have hlt := cntNewer_lt_of_mem (seen ++ [m]) x hxT
        rw [List.length_append] at hlt
        simp at hlt
        omega
      · rintro ⟨hxT, _⟩
        rcases List.mem_append.mp hxT with h | h
        · have hc : cntNewer seen x < cap := by
            have := cntNewer_lt_of_mem seen x h
            omega
          exact List.mem_append_left _ ((hchar x).mpr ⟨h, hc⟩)
        · exact List.mem_append_right _ h

theorem chatInv_run (cap : Nat) : ∀ (rest seen : List Msg) (M : JsMap Msg),
    ((seen ++ rest).map messageTimestampMs).Nodup →
    ((seen ++ rest).map idOf).Nodup →
    ChatInv cap seen M →
    ChatInv cap (seen ++ rest)
      (rest.foldl (fun acc msg => chatStep cap acc (idOf msg) msg) M) := by
  intro rest
  induction rest with
  | nil =>
    intro seen M _ _ hinv
    simpa using hinv
  | cons m rest2 ih =>
    intro seen M hts hids hinv
    have hassoc : seen ++ m :: rest2 = (seen ++ [m]) ++ rest2 := by simp
    have hts1 : (((seen ++ [m]) ++ rest2).map messageTimestampMs).Nodup := by
      rw [← hassoc]
      exact hts
    have hids1 : (((seen ++ [m]) ++ rest2).map idOf).Nodup := by
      rw [← hassoc]
      exact hids
    have htsPre : ((seen ++ [m]).map messageTimestampMs).Nodup :=
      List.Nodup.sublist (List.Sublist.map _ (List.sublist_append_left _ _)) hts1
    have hidsPre : ((seen ++ [m]).map idOf).Nodup :=
      List.Nodup.sublist (List.Sublist.map _ (List.sublist_append_left _ _)) hids1
    have hstep := chatInv_step cap seen m M htsPre hidsPre hinv
    have hrec := ih (seen ++ [m]) (chatStep cap M (idOf m) m) hts1 hids1 hstep
    rw [hassoc]
    exact hrec

theorem cacheMessages_chat_fold (cap : Nat) (rnd : Nat → String) (j : String)
    (hjne : j ≠ "") :
    ∀ (ms : List Msg) (acc : JsMap (JsMap Msg) × Nat),
    (∀ m ∈ ms, m.key.remoteJid = some j) →
    (∀ m ∈ ms, strTruthy m.key.id = true) →
    ((JsMap.mget (ms.foldl (cacheOne cap rnd) acc).1 j).getD [])
      = ms.foldl (fun accM msg => chatStep cap accM (idOf msg) msg)
          ((JsMap.mget acc.1 j).getD []) := by
  intro ms
  induction ms with
  | nil =>
    intro acc _ _
    rfl
  | cons m rest ih =>
    intro acc hjid hidt
    have h1 := cacheOne_eq cap rnd acc m j (hjid m (List.mem_cons_self _ _)) hjne
      (hidt m (List.mem_cons_self _ _))
    show ((JsMap.mget (rest.foldl (cacheOne cap rnd) (cacheOne cap rnd acc m)).1 j).getD [])
      = _
    rw [ih (cacheOne cap rnd acc m)
      (fun x hx => hjid x (List.mem_cons_of_mem _ hx))
      (fun x hx => hidt x (List.mem_cons_of_mem _ hx))]
    rw [h1]
    rw [JsMap.mget_mset_self acc.1 j
      (chatStep cap ((JsMap.mget acc.1 j).getD []) (idOf m) m)]
    rfl

/-- C4: `maxCachedMessagesPerChat` defaults to 500; after **any** sequence
of `cacheMessages` operations from an empty cache, every per-chat
collection holds at most `cap` entries; and for a chat receiving messages
with distinct truthy ids and pairwise-distinct timestamps, the collection
holds exactly the `min cap n` most recent ones: a message is retained iff
fewer than `cap` of the inserted messages are strictly newer — i.e.
insertion beyond the cap evicts strictly the oldest by timestamp. -/
theorem cacheMessages_bounded_and_evicts_oldest
    (cap : Nat) (rnd : Nat → String)
    (anyMsgs : List Msg) (k : String)
    (j : String) (hjne : j ≠ "") (ms : List Msg)
    (hjid : ∀ m ∈ ms, m.key.remoteJid = some j)
    (hidt : ∀ m ∈ ms, strTruthy m.key.id = true)
    (hids : (ms.map idOf).Nodup)
    (htsd : (ms.map messageTimestampMs).Nodup) :
    maxCachedMessagesPerChat none = 500
    ∧ ((JsMap.mget (cacheMessages cap rnd {} anyMsgs).messagesByChat k).getD []).length
        ≤ cap
    ∧ ((JsMap.mget (cacheMessages cap rnd {} ms).messagesByChat j).getD []).length
        = min cap ms.length
    ∧ (∀ x : Msg,
        x ∈ JsMap.vals
            ((JsMap.mget (cacheMessages cap rnd {} ms).messagesByChat j).getD [])
          ↔ x ∈ ms ∧ cntNewer ms x < cap) := by
  have hinit : BoundedStore cap ([] : JsMap (JsMap Msg)) := by
    intro c
    constructor
    · simp [JsMap.mget, JsMap.KeysNodup, JsMap.keys]
    · simp [JsMap.mget]
  have hbound := boundedStore_cacheMessages cap rnd anyMsgs ([], 0) hinit
  have hfold := cacheMessages_chat_fold cap rnd j hjne ms ([], 0) hjid hidt
  have hrun := chatInv_run cap ms [] [] (by simpa using htsd) (by simpa using hids)
    (chatInv_init cap)
  have hcmAny : (cacheMessages cap rnd {} anyMsgs).messagesByChat
      = (anyMsgs.foldl (cacheOne cap rnd) ([], 0)).1 := rfl
  have hcm : (cacheMessages cap rnd {} ms).messagesByChat
      = (ms.foldl (cacheOne cap rnd) ([], 0)).1 := rfl
  refine ⟨rfl, ?_, ?_, ?_⟩
  · rw [hcmAny]
    exact (hbound k).2
  · rw [hcm, hfold]
    have hlen := hrun.lengthEq
    simpa using hlen
  · intro x
    rw [hcm, hfold]
    have hch := hrun.charact x
    simpa using hch

unseal List.merge List.mergeSort in
/-- Witness for C4 with `cap = 2` and three messages at timestamps
1000 < 2000 < 3000 ms: the chat retains exactly the two most recent
(the message at 1000 is evicted). -/
theorem cacheMessages_bounded_and_evicts_oldest_witness :
    ((JsMap.mget (cacheMessages 2 (fun _ => "") {}
        [msgAtSec "W1" "c" 1, msgAtSec "W2" "c" 2, msgAtSec "W3" "c" 3]).messagesByChat
        "c").getD []).length = min 2 3
    ∧ msgAtSec "W1" "c" 1 ∉ JsMap.vals
        ((JsMap.mget (cacheMessages 2 (fun _ => "") {}
          [msgAtSec "W1" "c" 1, msgAtSec "W2" "c" 2, msgAtSec "W3" "c" 3]).messagesByChat
          "c").getD [])
    ∧ msgAtSec "W2" "c" 2 ∈ JsMap.vals
        ((JsMap.mget (cacheMessages 2 (fun _ => "") {}
          [msgAtSec "W1" "c" 1, msgAtSec "W2" "c" 2, msgAtSec "W3" "c" 3]).messagesByChat
          "c").getD [])
    ∧ msgAtSec "W3" "c" 3 ∈ JsMap.vals
        ((JsMap.mget (cacheMessages 2 (fun _ => "") {}
          [msgAtSec "W1" "c" 1, msgAtSec "W2" "c" 2, msgAtSec "W3" "c" 3]).messagesByChat
          "c").getD []) := by
  have h := cacheMessages_bounded_and_evicts_oldest 2 (fun _ => "")
    [msgAtSec "W1" "c" 1, msgAtSec "W2" "c" 2, msgAtSec "W3" "c" 3] "c" "c"
    (by decide)
    [msgAtSec "W1" "c" 1, msgAtSec "W2" "c" 2, msgAtSec "W3" "c" 3]
    (by decide) (by decide) (by decide) (by decide)
  refine ⟨h.2.2.1, ?_, ?_, ?_⟩
  · intro hc
    have hx := (h.2.2.2 (msgAtSec "W1" "c" 1)).mp hc
    have h2 : cntNewer [msgAtSec "W1" "c" 1, msgAtSec "W2" "c" 2, msgAtSec "W3" "c" 3]
        (msgAtSec "W1" "c" 1) = 2 := by decide
    rw [h2] at hx
    exact absurd hx.2 (by norm_num)
  · exact (h.2.2.2 _).mpr ⟨by decide, by decide⟩
  · exact (h.2.2.2 _).mpr ⟨by decide, by decide⟩

end S2P
